import Mathlib

/-!
Shallow embedding of the OmniGuard observability analytics core
(`src/app/observability/...`) together with proofs of the specification
claims about it.

Conventions used throughout:
* Python `float` arithmetic is modelled by exact real arithmetic (`ℝ`).
* Python `int` is modelled by `ℤ`; timestamps (`datetime.now(timezone.utc)`)
  are modelled by a `Nat` clock value passed explicitly to every operation
  that reads the clock (an operation that reads the clock more than once in
  immediate succession is modelled with a single instant).
* A Python `dict` is modelled by an insertion-ordered association list; the
  dictionaries built by the code itself always have distinct keys.
* Mutable objects that are shared by reference are modelled through their
  registry key: the session registry never rebinds an id to a different
  `SessionState` object, so reading a field through a previously returned
  object reference is modelled as looking the id up in the current tracker.
-/

namespace OmniGuard

/-- Metadata dictionaries (`Dict[str, Any]`); the values are abstracted as
strings, which is enough for every claim considered here. -/
abbrev Metadata := List (String × String)

/-- Python `dict.update`: keys already present are overwritten in place,
fresh keys are appended in insertion order. -/
def dictUpdate (base upd : Metadata) : Metadata :=
  (base.map fun p =>
    match upd.lookup p.1 with
    | some w => (p.1, w)
    | none => p) ++
  upd.filter fun q => (base.lookup q.1).isNone

/-- Payload of a `SessionEvent` (`session_started` / `llm_turn` /
`session_ended` payload dictionaries in `session_tracker.py`). -/
inductive EventPayload where
  | started (metadata : Metadata)
  | turn (inputTokens outputTokens : Int) (metadata : Metadata)
  | ended (reason : String)
  deriving DecidableEq

/-- The `SessionEvent` dataclass from `session_tracker.py`. -/
structure SessionEvent where
  timestamp : Nat
  event_type : String
  payload : EventPayload
  deriving DecidableEq

/-- The `SessionState` dataclass from `session_tracker.py`. -/
structure SessionState where
  session_id : String
  created_at : Nat
  last_activity : Nat
  total_input_tokens : Int := 0
  total_output_tokens : Int := 0
  turn_count : Int := 0
  metadata : Metadata := []
  events : List SessionEvent := []
  deriving DecidableEq

/-- The `SessionTracker` class: its `_sessions` registry, an
insertion-ordered mapping from session id to the session's state object. -/
structure SessionTracker where
  sessions : List (String × SessionState) := []
  deriving DecidableEq

/-- `SessionTracker.__init__`: an empty registry. -/
def SessionTracker.init : SessionTracker := ⟨[]⟩

/-- Store `st` under `id`: overwrite in place when the id is present (Python
mutates the object bound in the dict), append otherwise (dict insertion
order puts a fresh key last). -/
def SessionTracker.setSession (t : SessionTracker) (id : String)
    (st : SessionState) : SessionTracker :=
  if (t.sessions.lookup id).isSome then
    ⟨t.sessions.map fun p => if p.1 = id then (id, st) else p⟩
  else
    ⟨t.sessions ++ [(id, st)]⟩

/-- The state created by `start_session` for a previously unknown id, after
the `session_started` event has been appended to it. -/
def startState (id : String) (md : Metadata) (now : Nat) : SessionState :=
  { session_id := id
    created_at := now
    last_activity := now
    metadata := md
    events := [⟨now, "session_started", .started md⟩] }

/-- `SessionTracker.start_session`. -/
def SessionTracker.start_session (t : SessionTracker) (id : String)
    (metadata : Option Metadata) (now : Nat) : SessionState × SessionTracker :=
  let md := metadata.getD []
  match t.sessions.lookup id with
  | none =>
      let st := startState id md now
      (st, t.setSession id st)
  | some st =>
      let st' : SessionState :=
        { st with
          last_activity := now
          metadata := dictUpdate st.metadata md
          events := st.events ++ [⟨now, "session_started", .started md⟩] }
      (st', t.setSession id st')

/-- The state update performed by the body of `SessionTracker.record_turn`
once the session state `st` is at hand: clamp-add the token counts, bump the
turn counter, touch `last_activity`, merge metadata and append the
`llm_turn` event carrying the raw token counts. -/
def recordTurnUpd (st : SessionState) (input_tokens output_tokens : Int)
    (md : Metadata) (now : Nat) : SessionState :=
  { st with
    total_input_tokens := st.total_input_tokens + max 0 input_tokens
    total_output_tokens := st.total_output_tokens + max 0 output_tokens
    turn_count := st.turn_count + 1
    last_activity := now
    metadata := dictUpdate st.metadata md
    events := st.events ++ [⟨now, "llm_turn", .turn input_tokens output_tokens md⟩] }

/-- `SessionTracker.record_turn`; an absent session is first started
implicitly via `start_session`. -/
def SessionTracker.record_turn (t : SessionTracker) (id : String)
    (input_tokens output_tokens : Int) (metadata : Option Metadata)
    (now : Nat) : SessionState × SessionTracker :=
  let md := metadata.getD []
  let p : SessionState × SessionTracker :=
    match t.sessions.lookup id with
    | some st => (st, t)
    | none => t.start_session id (some md) now
  let st' := recordTurnUpd p.1 input_tokens output_tokens md now
  (st', p.2.setSession id st')

/-- `SessionTracker.end_session`: returns `none` (Python `None`) and leaves
the registry alone when the id is unknown. -/
def SessionTracker.end_session (t : SessionTracker) (id : String)
    (reason : String) (now : Nat) : Option SessionState × SessionTracker :=
  match t.sessions.lookup id with
  | none => (none, t)
  | some st =>
      let st' : SessionState :=
        { st with
          last_activity := now
          events := st.events ++ [⟨now, "session_ended", .ended reason⟩] }
      (some st', t.setSession id st')

/-- `SessionTracker.get_session_state`. -/
def SessionTracker.get_session_state (t : SessionTracker) (id : String) :
    Option SessionState :=
  t.sessions.lookup id

/-- `SessionTracker.get_all_sessions`: `list(self._sessions.values())` — a
fresh list whose elements are the registry's session state objects. -/
def SessionTracker.get_all_sessions (t : SessionTracker) : List SessionState :=
  t.sessions.map fun p => p.2

/-- One `record_turn` call: the clock value and the raw call arguments. -/
structure TurnCall where
  now : Nat
  input : Int
  output : Int
  metadata : Option Metadata

/-- A sequence of `record_turn` calls for a single session id. -/
def recordTurns (t : SessionTracker) (id : String) (calls : List TurnCall) :
    SessionTracker :=
  calls.foldl (fun acc c => (acc.record_turn id c.input c.output c.metadata c.now).2) t

section LookupLemmas

variable {β : Type _}

lemma lookup_cons (k a1 : String) (b : β) (t : List (String × β)) :
    List.lookup k ((a1, b) :: t) = if k = a1 then some b else List.lookup k t := by
  by_cases h : k = a1
  · subst h
    simp [List.lookup]
  · have hb : (k == a1) = false := by simp [h]
    simp [List.lookup, hb, h]

lemma lookup_append_of_none (l l' : List (String × β)) (k : String)
    (h : l.lookup k = none) : (l ++ l').lookup k = l'.lookup k := by
  induction l with
  | nil => simp
  | cons a t ih =>
      rcases a with ⟨a1, a2⟩
      rw [lookup_cons] at h
      rw [List.cons_append, lookup_cons]
      by_cases hk : k = a1
      · rw [if_pos hk] at h
        exact absurd h (by simp)
      · rw [if_neg hk] at h
        rw [if_neg hk]
        exact ih h

lemma lookup_append_left (l l' : List (String × β)) (k : String) (v : β)
    (h : l.lookup k = some v) : (l ++ l').lookup k = some v := by
  induction l with
  | nil => simp [List.lookup] at h
  | cons a t ih =>
      rcases a with ⟨a1, a2⟩
      rw [lookup_cons] at h
      rw [List.cons_append, lookup_cons]
      by_cases hk : k = a1
      · rw [if_pos hk] at h
        rw [if_pos hk]
        exact h
      · rw [if_neg hk] at h
        rw [if_neg hk]
        exact ih h

lemma lookup_replace_self (l : List (String × β)) (k : String) (v : β)
    (h : (l.lookup k).isSome) :
    (l.map fun p => if p.1 = k then (k, v) else p).lookup k = some v := by
  induction l with
  | nil => simp [List.lookup] at h
  | cons a t ih =>
      rcases a with ⟨a1, a2⟩
      rw [lookup_cons] at h
      by_cases hk : a1 = k
      · subst hk
        have he : (if ((a1, a2) : String × β).1 = a1 then (a1, v) else (a1, a2)) = (a1, v) := by
          simp
        rw [List.map_cons, he, lookup_cons, if_pos rfl]
      · have he : (if ((a1, a2) : String × β).1 = k then (k, v) else (a1, a2)) = (a1, a2) := by
          simp [hk]
        rw [List.map_cons, he, lookup_cons, if_neg (fun hx => hk hx.symm)]
        rw [if_neg (fun hx => hk hx.symm)] at h
        exact ih h

lemma lookup_replace_ne (l : List (String × β)) (k k' : String) (v : β)
    (h : k' ≠ k) :
    (l.map fun p => if p.1 = k then (k, v) else p).lookup k' = l.lookup k' := by
  induction l with
  | nil => simp
  | cons a t ih =>
      rcases a with ⟨a1, a2⟩
      by_cases hk : a1 = k
      · subst hk
        have he : (if ((a1, a2) : String × β).1 = a1 then (a1, v) else (a1, a2)) = (a1, v) := by
          simp
        rw [List.map_cons, he, lookup_cons, lookup_cons, if_neg h, if_neg h]
        exact ih
      · have he : (if ((a1, a2) : String × β).1 = k then (k, v) else (a1, a2)) = (a1, a2) := by
          simp [hk]
        rw [List.map_cons, he, lookup_cons, lookup_cons]
        by_cases hk' : k' = a1
        · rw [if_pos hk', if_pos hk']
        · rw [if_neg hk', if_neg hk']
          exact ih

end LookupLemmas

lemma setSession_lookup_self (t : SessionTracker) (id : String)
    (st : SessionState) :
    (t.setSession id st).sessions.lookup id = some st := by
  unfold SessionTracker.setSession
  by_cases h : (t.sessions.lookup id).isSome
  · rw [if_pos h]
    exact lookup_replace_self _ _ _ h
  · rw [if_neg h]
    have hn : t.sessions.lookup id = none := by
      cases hl : t.sessions.lookup id with
      | none => rfl
      | some v => rw [hl] at h; simp at h
    show (t.sessions ++ [(id, st)]).lookup id = some st
    rw [lookup_append_of_none _ _ _ hn]
    simp [List.lookup]

lemma setSession_lookup_ne (t : SessionTracker) (id id' : String)
    (st : SessionState) (h : id' ≠ id) :
    (t.setSession id st).sessions.lookup id' = t.sessions.lookup id' := by
  unfold SessionTracker.setSession
  by_cases hs : (t.sessions.lookup id).isSome
  · rw [if_pos hs]
    exact lookup_replace_ne _ _ _ _ h
  · rw [if_neg hs]
    show (t.sessions ++ [(id, st)]).lookup id' = t.sessions.lookup id'
    cases hl : t.sessions.lookup id' with
    | none =>
        rw [lookup_append_of_none _ _ _ hl, lookup_cons, if_neg h]
        rfl
    | some v => exact lookup_append_left _ _ _ _ hl

lemma record_turn_present (t : SessionTracker) (id : String)
    (st : SessionState) (h : t.sessions.lookup id = some st)
    (i o : Int) (md : Option Metadata) (now : Nat) :
    t.record_turn id i o md now =
      (recordTurnUpd st i o (md.getD []) now,
       t.setSession id (recordTurnUpd st i o (md.getD []) now)) := by
  unfold SessionTracker.record_turn
  rw [h]

lemma record_turn_lookup (t : SessionTracker) (id : String)
    (st : SessionState) (h : t.sessions.lookup id = some st)
    (i o : Int) (md : Option Metadata) (now : Nat) :
    (t.record_turn id i o md now).2.sessions.lookup id =
      some (recordTurnUpd st i o (md.getD []) now) := by
  rw [record_turn_present t id st h]
  exact setSession_lookup_self _ _ _

lemma mem_of_lookup {β : Type _} (l : List (String × β)) (k : String) (v : β)
    (h : l.lookup k = some v) : (k, v) ∈ l := by
  induction l with
  | nil => simp [List.lookup] at h
  | cons a t ih =>
      rcases a with ⟨a1, a2⟩
      rw [lookup_cons] at h
      by_cases hk : k = a1
      · rw [if_pos hk] at h
        subst hk
        cases h
        exact List.mem_cons_self _ _
      · rw [if_neg hk] at h
        exact List.mem_cons_of_mem _ (ih h)

lemma record_turn_fresh (t : SessionTracker) (id : String)
    (h : t.sessions.lookup id = none) (i o : Int) (md : Option Metadata)
    (now : Nat) :
    t.record_turn id i o md now =
      (recordTurnUpd (startState id (md.getD []) now) i o (md.getD []) now,
       (t.setSession id (startState id (md.getD []) now)).setSession id
         (recordTurnUpd (startState id (md.getD []) now) i o (md.getD []) now)) := by
  unfold SessionTracker.record_turn SessionTracker.start_session
  rw [h]
  rfl

lemma record_turn_fresh_lookup (t : SessionTracker) (id : String)
    (h : t.sessions.lookup id = none) (i o : Int) (md : Option Metadata)
    (now : Nat) :
    (t.record_turn id i o md now).2.sessions.lookup id =
      some (recordTurnUpd (startState id (md.getD []) now) i o (md.getD []) now) := by
  rw [record_turn_fresh t id h]
  exact setSession_lookup_self _ _ _

lemma recordTurns_present (id : String) (calls : List TurnCall) :
    ∀ (t : SessionTracker) (st : SessionState),
      t.sessions.lookup id = some st →
      ∃ st', (recordTurns t id calls).sessions.lookup id = some st' ∧
        st'.turn_count = st.turn_count + (calls.length : Int) ∧
        st'.total_input_tokens
          = st.total_input_tokens + (calls.map fun c => max 0 c.input).sum ∧
        st'.total_output_tokens
          = st.total_output_tokens + (calls.map fun c => max 0 c.output).sum := by
  induction calls with
  | nil =>
      intro t st h
      exact ⟨st, by simpa [recordTurns] using h, by simp, by simp, by simp⟩
  | cons c rest ih =>
      intro t st h
      have hstep := record_turn_lookup t id st h c.input c.output c.metadata c.now
      obtain ⟨st', hl, h1, h2, h3⟩ := ih _ _ hstep
      refine ⟨st', by simpa [recordTurns] using hl, ?_, ?_, ?_⟩
      · rw [h1]
        simp [recordTurnUpd]
        ring
      · rw [h2]
        simp [recordTurnUpd]
        ring
      · rw [h3]
        simp [recordTurnUpd]
        ring

/-- C1: starting from a fresh session id, after `record_turn` is called `n`
times with token inputs `(i_k, o_k)` the resulting session state has
`turn_count = n`, `total_input_tokens = Σ max(0, i_k)` and
`total_output_tokens = Σ max(0, o_k)`; negative token counts are clamped to
zero and never decrement the counters. -/
theorem recordTurn_counters (t : SessionTracker) (id : String)
    (calls : List TurnCall) (hfresh : t.get_session_state id = none)
    (hne : calls ≠ []) :
    ∃ st', (recordTurns t id calls).get_session_state id = some st' ∧
      st'.turn_count = (calls.length : Int) ∧
      st'.total_input_tokens = (calls.map fun c => max 0 c.input).sum ∧
      st'.total_output_tokens = (calls.map fun c => max 0 c.output).sum := by
  cases calls with
  | nil => exact absurd rfl hne
  | cons c rest =>
      have h1 := record_turn_fresh_lookup t id hfresh c.input c.output c.metadata c.now
      obtain ⟨st', hl, hA, hB, hC⟩ := recordTurns_present id rest _ _ h1
      refine ⟨st', by simpa [recordTurns] using hl, ?_, ?_, ?_⟩
      · rw [hA]
        simp [recordTurnUpd, startState]
        ring
      · rw [hB]
        simp [recordTurnUpd, startState]
      · rw [hC]
        simp [recordTurnUpd, startState]

/-- Witness for C1 at a concrete run: two turns with inputs (5, -3) and
(-2, 4) give `turn_count = 2`, `total_input_tokens = 5`,
`total_output_tokens = 4` (the negative counts clamp to zero). -/
theorem recordTurn_counters_witness :
    SessionTracker.init.get_session_state "s" = none ∧
    ∃ st', (recordTurns SessionTracker.init "s"
        [⟨0, 5, -3, none⟩, ⟨1, -2, 4, none⟩]).get_session_state "s" = some st' ∧
      st'.turn_count = 2 ∧ st'.total_input_tokens = 5 ∧
      st'.total_output_tokens = 4 := by
  refine ⟨rfl, ?_⟩
  obtain ⟨st', h1, h2, h3, h4⟩ :=
    recordTurn_counters SessionTracker.init "s"
      [⟨0, 5, -3, none⟩, ⟨1, -2, 4, none⟩] rfl (by simp)
  refine ⟨st', h1, ?_, ?_, ?_⟩
  · rw [h2]; rfl
  · rw [h3]; rfl
  · rw [h4]; rfl

/-- C10: `end_session` on an existing session only touches that session's
`last_activity` and appends exactly one `session_ended` event, leaving the
identity, creation time, counters, metadata and every other session
unchanged; on an unknown id it returns not-found (`none`) and leaves the
registry untouched (no implicit session creation). -/
theorem end_session_frame (t : SessionTracker) (id reason : String) (now : Nat) :
    (∀ st, t.get_session_state id = some st →
      ∃ st', t.end_session id reason now = (some st', t.setSession id st') ∧
        st' = { st with
                last_activity := now
                events := st.events ++ [⟨now, "session_ended", .ended reason⟩] } ∧
        st'.session_id = st.session_id ∧
        st'.created_at = st.created_at ∧
        st'.total_input_tokens = st.total_input_tokens ∧
        st'.total_output_tokens = st.total_output_tokens ∧
        st'.turn_count = st.turn_count ∧
        st'.metadata = st.metadata ∧
        st'.last_activity = now ∧
        st'.events = st.events ++ [⟨now, "session_ended", .ended reason⟩] ∧
        (t.end_session id reason now).2.get_session_state id = some st' ∧
        (∀ id', id' ≠ id →
          (t.end_session id reason now).2.get_session_state id'
            = t.get_session_state id')) ∧
    (t.get_session_state id = none → t.end_session id reason now = (none, t)) := by
  constructor
  · intro st h
    have hend : t.end_session id reason now =
        (some { st with
                last_activity := now
                events := st.events ++ [⟨now, "session_ended", .ended reason⟩] },
         t.setSession id
           { st with
             last_activity := now
             events := st.events ++ [⟨now, "session_ended", .ended reason⟩] }) := by
      unfold SessionTracker.end_session
      rw [show t.sessions.lookup id = some st from h]
    refine ⟨_, hend, rfl, rfl, rfl, rfl, rfl, rfl, rfl, rfl, rfl, ?_, ?_⟩
    · rw [hend]
      exact setSession_lookup_self _ _ _
    · intro id' hne
      rw [hend]
      exact setSession_lookup_ne _ _ _ _ hne
  · intro h
    unfold SessionTracker.end_session
    rw [show t.sessions.lookup id = none from h]

/-- Witness for C10 at a concrete tracker holding the single session "s":
ending "s" returns its final state and ending the unknown id "u" returns
not-found while leaving the tracker unchanged. -/
theorem end_session_frame_witness :
    ((SessionTracker.init.start_session "s" none 0).2.end_session "s" "bye" 5).1 =
      some { startState "s" [] 0 with
             last_activity := 5
             events := (startState "s" [] 0).events
               ++ [⟨5, "session_ended", .ended "bye"⟩] } ∧
    (SessionTracker.init.start_session "s" none 0).2.end_session "u" "bye" 5 =
      (none, (SessionTracker.init.start_session "s" none 0).2) := by
  constructor
  · obtain ⟨st', heq, hdef, -⟩ :=
      (end_session_frame (SessionTracker.init.start_session "s" none 0).2
        "s" "bye" 5).1 (startState "s" [] 0) rfl
    rw [heq, hdef]
  · exact (end_session_frame (SessionTracker.init.start_session "s" none 0).2
      "u" "bye" 5).2 rfl

/-- C7 counterexample: `get_all_sessions` is not a snapshot.  The tracker's
registry binds "s" to a single mutable state object; after the list has been
retrieved (its only element showing `turn_count = 1`), a later `record_turn`
changes the field observed through that same object (the registry entry for
"s") to 2. -/
theorem get_all_sessions_live_counterexample :
    ((SessionTracker.init.record_turn "s" 3 4 none 0).2.get_all_sessions.map
        fun st => (st.session_id, st.turn_count)) = [("s", 1)] ∧
    ((((SessionTracker.init.record_turn "s" 3 4 none 0).2.record_turn
          "s" 1 1 none 5).2.get_session_state "s").map SessionState.turn_count)
      = some 2 ∧
    ((((SessionTracker.init.record_turn "s" 3 4 none 0).2.record_turn
          "s" 1 1 none 5).2.get_session_state "s").map SessionState.turn_count)
      ≠ (((SessionTracker.init.record_turn "s" 3 4 none 0).2.get_all_sessions.map
          SessionState.turn_count).head?) := by
  refine ⟨rfl, rfl, ?_⟩
  decide

/-- C7 amended: `get_all_sessions` returns a fresh list whose elements are
live references to the registry's session objects, so scalar fields read
through a previously returned state change when the tracker is mutated
afterwards: a later `record_turn` on that session increments the observed
`turn_count`, sets `last_activity` to the call time and adds the clamped
input tokens. -/
theorem get_all_sessions_live_view (t : SessionTracker) (id : String)
    (st : SessionState) (h : t.get_session_state id = some st)
    (i o : Int) (md : Option Metadata) (now : Nat) :
    st ∈ t.get_all_sessions ∧
    ((t.record_turn id i o md now).2.get_session_state id).map
        SessionState.turn_count = some (st.turn_count + 1) ∧
    ((t.record_turn id i o md now).2.get_session_state id).map
        SessionState.last_activity = some now ∧
    ((t.record_turn id i o md now).2.get_session_state id).map
        SessionState.total_input_tokens
      = some (st.total_input_tokens + max 0 i) := by
  have hmem : (id, st) ∈ t.sessions := mem_of_lookup _ _ _ h
  have hlk := record_turn_lookup t id st h i o md now
  refine ⟨?_, ?_, ?_, ?_⟩
  · exact List.mem_map_of_mem (fun p => p.2) hmem
  · rw [show (t.record_turn id i o md now).2.get_session_state id
        = some (recordTurnUpd st i o (md.getD []) now) from hlk]
    simp [recordTurnUpd]
  · rw [show (t.record_turn id i o md now).2.get_session_state id
        = some (recordTurnUpd st i o (md.getD []) now) from hlk]
    simp [recordTurnUpd]
  · rw [show (t.record_turn id i o md now).2.get_session_state id
        = some (recordTurnUpd st i o (md.getD []) now) from hlk]
    simp [recordTurnUpd]

/-- Witness for the amended C7 at a concrete tracker: the session "s"
(turn_count 1) is in the retrieved list, and after a later `record_turn` the
state observed for "s" has turn_count 2, last_activity 5 and 8 input
tokens. -/
theorem get_all_sessions_live_view_witness :
    recordTurnUpd (startState "s" [] 0) 3 4 [] 0
      ∈ (SessionTracker.init.record_turn "s" 3 4 none 0).2.get_all_sessions ∧
    ((((SessionTracker.init.record_turn "s" 3 4 none 0).2.record_turn
          "s" 1 1 none 5).2.get_session_state "s").map SessionState.turn_count)
      = some ((recordTurnUpd (startState "s" [] 0) 3 4 [] 0).turn_count + 1) ∧
    ((((SessionTracker.init.record_turn "s" 3 4 none 0).2.record_turn
          "s" 1 1 none 5).2.get_session_state "s").map SessionState.last_activity)
      = some 5 ∧
    ((((SessionTracker.init.record_turn "s" 3 4 none 0).2.record_turn
          "s" 1 1 none 5).2.get_session_state "s").map
          SessionState.total_input_tokens)
      = some ((recordTurnUpd (startState "s" [] 0) 3 4 [] 0).total_input_tokens
          + max 0 1) :=
  get_all_sessions_live_view (SessionTracker.init.record_turn "s" 3 4 none 0).2
    "s" (recordTurnUpd (startState "s" [] 0) 3 4 [] 0) rfl 1 1 none 5

/-- `_cosine_distance` from `drift_detector.py`: 1 − cosine similarity,
with 0.0 on dimension mismatch, empty vectors, or a zero-magnitude operand.
The Python loop accumulates `dot`, `na`, `nb` over `zip(a, b)`, which the
guard has already forced to run over both vectors in full. -/
noncomputable def cosineDistance (a b : List ℝ) : ℝ :=
  if a.length ≠ b.length ∨ a.length = 0 then 0
  else
    let dot := ((a.zip b).map fun p => p.1 * p.2).sum
    let na := ((a.zip b).map fun p => p.1 * p.1).sum
    let nb := ((a.zip b).map fun p => p.2 * p.2).sum
    if na = 0 ∨ nb = 0 then 0
    else 1 - dot / (Real.sqrt na * Real.sqrt nb)

/-- `DriftResult` dataclass. -/
structure DriftResult where
  window_size : Nat
  hybrid_drift_score : ℝ
  vertex_drift_score : ℝ
  minilm_drift_score : ℝ
  is_drift : Bool

/-- `HybridEmbeddingDriftDetector`: the clamped configuration and the two
bounded FIFO histories. -/
structure HybridEmbeddingDriftDetector where
  window_size : Nat
  drift_threshold : ℝ
  vertex_history : List (List ℝ)
  minilm_history : List (List ℝ)

/-- `HybridEmbeddingDriftDetector.__init__`: stores `max(1, window_size)`
and `max(0.0, drift_threshold)` and starts with empty histories. -/
noncomputable def mkDriftDetector (window_size : Int) (drift_threshold : ℝ) :
    HybridEmbeddingDriftDetector :=
  { window_size := (max 1 window_size).toNat
    drift_threshold := max 0 drift_threshold
    vertex_history := []
    minilm_history := [] }

/-- `_baseline_centroid`: `none` when the history is empty or its first
vector is empty; otherwise the element-wise mean over the first vector's
dimensionality.  (Python would raise `IndexError` if a later vector were
longer than the first; that case — which the claims exclude by quantifying
over uniform-dimension histories — is totalised by ignoring the excess
coordinates, and agrees with Python everywhere Python returns.) -/
noncomputable def baselineCentroid (history : List (List ℝ)) :
    Option (List ℝ) :=
  match history with
  | [] => none
  | h :: _ =>
      if h.length = 0 then none
      else some ((List.range h.length).map fun i =>
        (history.map fun vec => vec.getD i 0).sum / (history.length : ℝ))

/-- `deque(maxlen=cap).append`: append, evicting the oldest element once
past capacity (FIFO). -/
def fifoPush {α : Type _} (l : List α) (x : α) (cap : Nat) : List α :=
  let l' := l ++ [x]
  l'.drop (l'.length - cap)

/-- `update_and_score`: score the two new embeddings against the pre-update
centroids, then push them into the histories. -/
noncomputable def updateAndScore (d : HybridEmbeddingDriftDetector)
    (vertex_embedding minilm_embedding : List ℝ) :
    DriftResult × HybridEmbeddingDriftDetector :=
  let vertex_drift :=
    match baselineCentroid d.vertex_history with
    | none => 0
    | some c => cosineDistance vertex_embedding c
  let minilm_drift :=
    match baselineCentroid d.minilm_history with
    | none => 0
    | some c => cosineDistance minilm_embedding c
  let hybrid_score := 0.5 * (vertex_drift + minilm_drift)
  let vertex_history' := fifoPush d.vertex_history vertex_embedding d.window_size
  let minilm_history' := fifoPush d.minilm_history minilm_embedding d.window_size
  let is_drift := decide (hybrid_score ≥ d.drift_threshold)
  (⟨vertex_history'.length, hybrid_score, vertex_drift, minilm_drift, is_drift⟩,
   { d with vertex_history := vertex_history', minilm_history := minilm_history' })

/-- The centroid in the specification's sense: the element-wise mean vector
of a (uniform-dimension) history. -/
noncomputable def meanVector (history : List (List ℝ)) : List ℝ :=
  (List.range (history.head?.getD []).length).map fun i =>
    (history.map fun vec => vec.getD i 0).sum / (history.length : ℝ)

lemma cosineDistance_nil_right (a : List ℝ) : cosineDistance a [] = 0 := by
  unfold cosineDistance
  rcases Nat.eq_zero_or_pos a.length with h | h
  · rw [if_pos (Or.inr h)]
  · rw [if_pos (Or.inl (by simpa using Nat.pos_iff_ne_zero.mp h))]

/-- C6 counterexample: constructing the drift detector with the invalid
configuration `window_size = 0 < 1`, `drift_threshold = -1 < 0` does not
fail fast — it succeeds, and the result is indistinguishable from a
detector constructed with the valid parameters `(1, 0)`: the constraints
are silently clamped, not rejected with an error. -/
theorem mkDriftDetector_accepts_invalid :
    mkDriftDetector 0 (-1) = mkDriftDetector 1 0 ∧
    (mkDriftDetector 0 (-1)).window_size = 1 ∧
    (mkDriftDetector 0 (-1)).drift_threshold = 0 := by
  have h1 : ((max 1 (0 : Int)).toNat) = ((max 1 (1 : Int)).toNat) := by decide
  have h2 : (max 0 (-1 : ℝ)) = 0 := by norm_num
  have h3 : (max 0 (0 : ℝ)) = 0 := by norm_num
  refine ⟨?_, ?_, ?_⟩
  · simp only [mkDriftDetector, h1, h2, h3]
  · simp only [mkDriftDetector]
    decide
  · simp only [mkDriftDetector, h2]

/-- C6 amended: the constructor accepts every configuration without error,
silently clamping `window_size` to `max(1, ·)` (hence ≥ 1) and
`drift_threshold` to `max(0, ·)` (hence ≥ 0), with empty initial
histories. -/
theorem mkDriftDetector_clamps (w : Int) (θ : ℝ) :
    (mkDriftDetector w θ).window_size = (max 1 w).toNat ∧
    1 ≤ (mkDriftDetector w θ).window_size ∧
    (mkDriftDetector w θ).drift_threshold = max 0 θ ∧
    0 ≤ (mkDriftDetector w θ).drift_threshold ∧
    (mkDriftDetector w θ).vertex_history = [] ∧
    (mkDriftDetector w θ).minilm_history = [] := by
  refine ⟨rfl, ?_, rfl, le_max_left _ _, rfl, rfl⟩
  simp only [mkDriftDetector]
  omega

/-- C2: `update_and_score` gives each source the cosine distance between
the new embedding and the centroid of that source's pre-call history (0.0
for an empty history; `cosineDistance` itself is 0.0 for zero-magnitude or
dimension-mismatched operands); the hybrid score is the arithmetic mean of
the two per-source scores; `is_drift` holds iff the hybrid score reaches
the threshold; and both embeddings are appended to their FIFO histories
only after scoring, so neither centroid includes the point being scored. -/
theorem updateAndScore_spec (d : HybridEmbeddingDriftDetector)
    (v m : List ℝ) (k k' : Nat)
    (hv : ∀ w ∈ d.vertex_history, w.length = k)
    (hm : ∀ w ∈ d.minilm_history, w.length = k') :
    (updateAndScore d v m).1.vertex_drift_score =
      (if d.vertex_history = [] then 0
       else cosineDistance v (meanVector d.vertex_history)) ∧
    (updateAndScore d v m).1.minilm_drift_score =
      (if d.minilm_history = [] then 0
       else cosineDistance m (meanVector d.minilm_history)) ∧
    (updateAndScore d v m).1.hybrid_drift_score =
      ((updateAndScore d v m).1.vertex_drift_score
        + (updateAndScore d v m).1.minilm_drift_score) / 2 ∧
    ((updateAndScore d v m).1.is_drift = true ↔
      (updateAndScore d v m).1.hybrid_drift_score ≥ d.drift_threshold) ∧
    (updateAndScore d v m).2.vertex_history
      = fifoPush d.vertex_history v d.window_size ∧
    (updateAndScore d v m).2.minilm_history
      = fifoPush d.minilm_history m d.window_size := by
  refine ⟨?_, ?_, ?_, ?_, rfl, rfl⟩
  · cases hd : d.vertex_history with
    | nil => simp [updateAndScore, baselineCentroid, hd]
    | cons h tl =>
        by_cases h0 : h.length = 0
        · have hnil : h = [] := List.length_eq_zero.mp h0
          subst hnil
          simp [updateAndScore, baselineCentroid, hd, meanVector,
            cosineDistance_nil_right]
        · simp [updateAndScore, baselineCentroid, hd, h0, meanVector]
  · cases hd : d.minilm_history with
    | nil => simp [updateAndScore, baselineCentroid, hd]
    | cons h tl =>
        by_cases h0 : h.length = 0
        · have hnil : h = [] := List.length_eq_zero.mp h0
          subst hnil
          simp [updateAndScore, baselineCentroid, hd, meanVector,
            cosineDistance_nil_right]
        · simp [updateAndScore, baselineCentroid, hd, h0, meanVector]
  · simp only [updateAndScore]
    ring
  · simp only [updateAndScore, decide_eq_true_eq]

/-- Witness for C2 at a concrete detector state (one 2-dimensional vertex
embedding in history, empty minilm history). -/
theorem updateAndScore_spec_witness :
    (∀ w ∈ [[(1 : ℝ), 0]], w.length = 2) ∧
    ((updateAndScore ⟨2, 1/10, [[(1 : ℝ), 0]], []⟩ [0, 1] [1]).1.vertex_drift_score =
      (if ([[(1 : ℝ), 0]] : List (List ℝ)) = [] then 0
       else cosineDistance [0, 1] (meanVector [[(1 : ℝ), 0]])) ∧
    (updateAndScore ⟨2, 1/10, [[(1 : ℝ), 0]], []⟩ [0, 1] [1]).1.minilm_drift_score =
      (if ([] : List (List ℝ)) = [] then 0
       else cosineDistance [1] (meanVector [])) ∧
    (updateAndScore ⟨2, 1/10, [[(1 : ℝ), 0]], []⟩ [0, 1] [1]).1.hybrid_drift_score =
      ((updateAndScore ⟨2, 1/10, [[(1 : ℝ), 0]], []⟩ [0, 1] [1]).1.vertex_drift_score
        + (updateAndScore ⟨2, 1/10, [[(1 : ℝ), 0]], []⟩ [0, 1] [1]).1.minilm_drift_score) / 2 ∧
    ((updateAndScore ⟨2, 1/10, [[(1 : ℝ), 0]], []⟩ [0, 1] [1]).1.is_drift = true ↔
      (updateAndScore ⟨2, 1/10, [[(1 : ℝ), 0]], []⟩ [0, 1] [1]).1.hybrid_drift_score
        ≥ (⟨2, 1/10, [[(1 : ℝ), 0]], []⟩ : HybridEmbeddingDriftDetector).drift_threshold) ∧
    (updateAndScore ⟨2, 1/10, [[(1 : ℝ), 0]], []⟩ [0, 1] [1]).2.vertex_history
      = fifoPush [[(1 : ℝ), 0]] [0, 1] 2 ∧
    (updateAndScore ⟨2, 1/10, [[(1 : ℝ), 0]], []⟩ [0, 1] [1]).2.minilm_history
      = fifoPush [] [1] 2) :=
  ⟨by simp,
   updateAndScore_spec ⟨2, 1/10, [[(1 : ℝ), 0]], []⟩ [0, 1] [1] 2 0
     (by simp) (by simp)⟩

/-- Store `v` under `k` in an association-list dictionary: overwrite in
place when present, append otherwise (dict insertion order). -/
def setKey {β : Type _} (l : List (String × β)) (k : String) (v : β) :
    List (String × β) :=
  if (l.lookup k).isSome then l.map fun p => if p.1 = k then (k, v) else p
  else l ++ [(k, v)]

lemma setKey_lookup_self {β : Type _} (l : List (String × β)) (k : String)
    (v : β) : (setKey l k v).lookup k = some v := by
  unfold setKey
  by_cases h : (l.lookup k).isSome
  · rw [if_pos h]
    exact lookup_replace_self _ _ _ h
  · rw [if_neg h]
    have hn : l.lookup k = none := by
      cases hl : l.lookup k with
      | none => rfl
      | some w => rw [hl] at h; simp at h
    rw [lookup_append_of_none _ _ _ hn, lookup_cons, if_pos rfl]

/-- `_l2_distance` from `semantic_shift.py`: Euclidean distance, 0.0 on
dimension mismatch or empty input. -/
noncomputable def l2Distance (a b : List ℝ) : ℝ :=
  if a.length ≠ b.length ∨ a.length = 0 then 0
  else Real.sqrt (((a.zip b).map fun p => (p.1 - p.2) * (p.1 - p.2)).sum)

/-- `SemanticShiftSnapshot` dataclass. -/
structure SemanticShiftSnapshot where
  key : String
  window_size : Nat
  last_distance : ℝ
  mean_distance : ℝ
  max_distance : ℝ

/-- `SemanticShiftEngine`: the clamped window size and the per-key parallel
FIFO histories of embeddings and of computed distances. -/
structure SemanticShiftEngine where
  window_size : Nat
  history : List (String × List (List ℝ))
  distances : List (String × List ℝ)

/-- `SemanticShiftEngine.__init__`: `max(1, window_size)`, empty
dictionaries. -/
def mkShiftEngine (window_size : Int) : SemanticShiftEngine :=
  ⟨(max 1 window_size).toNat, [], []⟩

/-- `max` of a nonempty Python list; the `[]` case is unreachable behind
the code's nonemptiness guard. -/
noncomputable def listMax (l : List ℝ) : ℝ :=
  match l with
  | [] => 0
  | h :: t => t.foldl max h

/-- `SemanticShiftEngine.update`: read the key's histories (creating empty
ones on first use), compute `last_distance` against the supplied reference
or the most recent stored embedding, then push distance and embedding into
their FIFOs and report last/mean/max over the distance window. -/
noncomputable def SemanticShiftEngine.update (e : SemanticShiftEngine)
    (key : String) (embedding : List ℝ)
    (reference_embedding : Option (List ℝ)) :
    SemanticShiftSnapshot × SemanticShiftEngine :=
  let hist := (e.history.lookup key).getD []
  let dists := (e.distances.lookup key).getD []
  let last_distance :=
    match reference_embedding with
    | none =>
        match hist.getLast? with
        | none => 0
        | some prev => l2Distance embedding prev
    | some r => l2Distance embedding r
  let dists' := fifoPush dists last_distance e.window_size
  let hist' := fifoPush hist embedding e.window_size
  let mean_distance := if dists' = [] then 0 else dists'.sum / (dists'.length : ℝ)
  let max_distance := if dists' = [] then 0 else listMax dists'
  (⟨key, hist'.length, last_distance, mean_distance, max_distance⟩,
   { e with
     history := setKey e.history key hist'
     distances := setKey e.distances key dists' })

/-- `SemanticShiftEngine.get_snapshot`: read-only view; `none` when the key
has no (nonempty) histories. -/
noncomputable def SemanticShiftEngine.get_snapshot (e : SemanticShiftEngine)
    (key : String) : Option SemanticShiftSnapshot :=
  let hist := (e.history.lookup key).getD []
  let dists := (e.distances.lookup key).getD []
  if hist = [] ∨ dists = [] then none
  else some ⟨key, hist.length, (dists.getLast?).getD 0,
    dists.sum / (dists.length : ℝ), listMax dists⟩

lemma sum_zip_self_sub (v : List ℝ) :
    ((v.zip v).map fun p => (p.1 - p.2) * (p.1 - p.2)).sum = 0 := by
  induction v with
  | nil => simp
  | cons a t ih => simp [List.zip_cons_cons, ih]

lemma l2Distance_self (v : List ℝ) : l2Distance v v = 0 := by
  unfold l2Distance
  rcases Nat.eq_zero_or_pos v.length with h | h
  · rw [if_pos (Or.inr h)]
  · rw [if_neg (by simp [List.ne_nil_of_length_pos h])]
    rw [sum_zip_self_sub, Real.sqrt_zero]

lemma fifoPush_zero {α : Type _} (l : List α) (x : α) : fifoPush l x 0 = [] := by
  unfold fifoPush
  simp

lemma fifoPush_getLast {α : Type _} (l : List α) (x : α) (cap : Nat)
    (h : 1 ≤ cap) : (fifoPush l x cap).getLast? = some x := by
  unfold fifoPush
  have hle : (l ++ [x]).length - cap ≤ l.length := by
    simp only [List.length_append, List.length_cons, List.length_nil]
    omega
  rw [List.drop_append_of_le_length hle]
  simp

/-- C5: `update` computes `last_distance` as the Euclidean distance to the
supplied reference when one is given, and otherwise to the most recent
stored embedding for that key (0.0 when none is stored yet), reading the
history *before* the new embedding is appended; consequently two
consecutive updates with the same vector and no reference give
`last_distance = 0.0` on the second call. -/
theorem semanticShift_update_spec (e : SemanticShiftEngine) (key : String)
    (v : List ℝ) :
    (∀ r, (e.update key v (some r)).1.last_distance = l2Distance v r) ∧
    ((e.update key v none).1.last_distance =
      (match ((e.history.lookup key).getD []).getLast? with
       | none => 0
       | some prev => l2Distance v prev)) ∧
    (∀ ref, (e.update key v ref).2.history =
      setKey e.history key
        (fifoPush ((e.history.lookup key).getD []) v e.window_size)) ∧
    (∀ ref, (e.update key v ref).2.distances =
      setKey e.distances key
        (fifoPush ((e.distances.lookup key).getD [])
          (e.update key v ref).1.last_distance e.window_size)) ∧
    ((e.update key v none).2.update key v none).1.last_distance = 0 := by
  refine ⟨fun r => rfl, rfl, fun ref => rfl, fun ref => rfl, ?_⟩
  have hhist : ((e.update key v none).2.history.lookup key).getD []
      = fifoPush ((e.history.lookup key).getD []) v e.window_size := by
    rw [show (e.update key v none).2.history =
        setKey e.history key
          (fifoPush ((e.history.lookup key).getD []) v e.window_size) from rfl]
    rw [setKey_lookup_self]
    rfl
  have h2 : ((e.update key v none).2.update key v none).1.last_distance =
      (match ((((e.update key v none).2).history.lookup key).getD []).getLast? with
       | none => (0 : ℝ)
       | some prev => l2Distance v prev) := rfl
  rw [h2, hhist]
  rcases Nat.eq_zero_or_pos e.window_size with h0 | h1
  · rw [h0, fifoPush_zero]
    rfl
  · rw [fifoPush_getLast _ _ _ h1]
    exact l2Distance_self v

/-- `z_score_anomalies` from `anomaly.py`: population mean/std (divide by
`n`); all false when the standard deviation is zero; otherwise flag
`|x − mean| / std ≥ threshold`. -/
noncomputable def z_score_anomalies (values : List ℝ) (threshold : ℝ) :
    List Bool :=
  if values.length = 0 then []
  else
    let n : ℝ := values.length
    let mean := values.sum / n
    let var := (values.map fun x => (x - mean) * (x - mean)).sum / n
    let std := Real.sqrt var
    if std = 0 then List.replicate values.length false
    else values.map fun x => decide (|(x - mean) / std| ≥ threshold)

/-- `mad_anomalies` from `anomaly.py`: median and median absolute deviation
via full sorts (even length averages the two middle elements); all false
when the MAD is zero; otherwise flag the modified z-score
`0.6745 · |x − median| / MAD ≥ threshold`. -/
noncomputable def mad_anomalies (values : List ℝ) (threshold : ℝ) :
    List Bool :=
  if values.length = 0 then []
  else
    let n := values.length
    let sorted_data := values.mergeSort fun a b => decide (a ≤ b)
    let mid := n / 2
    let median :=
      if n % 2 = 1 then sorted_data.getD mid 0
      else 0.5 * (sorted_data.getD (mid - 1) 0 + sorted_data.getD mid 0)
    let abs_devs := values.map fun x => |x - median|
    let sorted_devs := abs_devs.mergeSort fun a b => decide (a ≤ b)
    let mad :=
      if n % 2 = 1 then sorted_devs.getD mid 0
      else 0.5 * (sorted_devs.getD (mid - 1) 0 + sorted_devs.getD mid 0)
    if mad = 0 then List.replicate n false
    else abs_devs.map fun dev => decide (0.6745 * dev / mad ≥ threshold)

/-- `embedding_delta_anomaly_score` from `anomaly.py`: Euclidean distance,
0.0 on dimension mismatch or empty input. -/
noncomputable def embedding_delta_anomaly_score (current previous : List ℝ) :
    ℝ :=
  if current.length ≠ previous.length ∨ current.length = 0 then 0
  else Real.sqrt (((current.zip previous).map
    fun p => (p.1 - p.2) * (p.1 - p.2)).sum)

lemma perm_replicate {α : Type _} {l : List α} {n : Nat} {a : α}
    (h : l.Perm (List.replicate n a)) : l = List.replicate n a := by
  have hlen : l.length = n := by
    simpa using h.length_eq
  refine List.eq_replicate_iff.mpr ⟨hlen, fun b hb => ?_⟩
  have := h.mem_iff.mp hb
  exact List.eq_of_mem_replicate this

lemma mergeSort_replicate {α : Type _} (n : Nat) (a : α)
    (le : α → α → Bool) :
    (List.replicate n a).mergeSort le = List.replicate n a :=
  perm_replicate (List.mergeSort_perm _ _)

lemma getD_replicate {α : Type _} (n i : Nat) (a d : α) (h : i < n) :
    (List.replicate n a).getD i d = a := by
  rw [List.getD_eq_getElem?_getD]
  simp [List.getElem?_replicate, h]

lemma z_score_anomalies_replicate (n : Nat) (c t : ℝ) :
    z_score_anomalies (List.replicate n c) t = List.replicate n false := by
  cases n with
  | zero => simp [z_score_anomalies]
  | succ m =>
      unfold z_score_anomalies
      rw [if_neg (by simp)]
      simp only [List.length_replicate]
      have hmean : (List.replicate (m + 1) c).sum / ((m + 1 : Nat) : ℝ) = c := by
        rw [List.sum_replicate, nsmul_eq_mul]
        have hne : ((m + 1 : Nat) : ℝ) ≠ 0 := by positivity
        field_simp
      rw [hmean]
      have hvar : ((List.replicate (m + 1) c).map
          fun x => (x - c) * (x - c)).sum = 0 := by
        rw [List.map_replicate]
        simp
      rw [hvar]
      simp

lemma mad_anomalies_replicate (n : Nat) (c t : ℝ) :
    mad_anomalies (List.replicate n c) t = List.replicate n false := by
  cases n with
  | zero => simp [mad_anomalies]
  | succ m =>
      unfold mad_anomalies
      rw [if_neg (by simp)]
      simp only [List.length_replicate, mergeSort_replicate]
      have hmid : (m + 1) / 2 < m + 1 := Nat.div_lt_self (Nat.succ_pos m) one_lt_two
      have hmid' : (m + 1) / 2 - 1 < m + 1 := by omega
      have hmed : (if (m + 1) % 2 = 1 then (List.replicate (m + 1) c).getD ((m + 1) / 2) 0
          else 0.5 * ((List.replicate (m + 1) c).getD ((m + 1) / 2 - 1) 0
            + (List.replicate (m + 1) c).getD ((m + 1) / 2) 0)) = c := by
        rw [getD_replicate _ _ _ _ hmid, getD_replicate _ _ _ _ hmid']
        by_cases hp : (m + 1) % 2 = 1
        · rw [if_pos hp]
        · rw [if_neg hp]
          ring
      rw [hmed]
      have hdevs : (List.replicate (m + 1) c).map (fun x => |x - c|)
          = List.replicate (m + 1) (0 : ℝ) := by
        rw [List.map_replicate]
        simp
      rw [hdevs, mergeSort_replicate]
      have hmad : (if (m + 1) % 2 = 1 then (List.replicate (m + 1) (0 : ℝ)).getD ((m + 1) / 2) 0
          else 0.5 * ((List.replicate (m + 1) (0 : ℝ)).getD ((m + 1) / 2 - 1) 0
            + (List.replicate (m + 1) (0 : ℝ)).getD ((m + 1) / 2) 0)) = 0 := by
        rw [getD_replicate _ _ _ _ hmid, getD_replicate _ _ _ _ hmid']
        by_cases hp : (m + 1) % 2 = 1
        · rw [if_pos hp]
        · rw [if_neg hp]
          ring
      rw [hmad]
      simp

/-- C8: on a constant input series both `z_score_anomalies` and
`mad_anomalies` return all-false of the input's length, because the
standard deviation, respectively the median absolute deviation, is zero. -/
theorem anomalies_constant_all_false (l : List ℝ) (c t t' : ℝ)
    (h : ∀ x ∈ l, x = c) :
    z_score_anomalies l t = List.replicate l.length false ∧
    mad_anomalies l t' = List.replicate l.length false := by
  have hl : l = List.replicate l.length c := List.eq_replicate_iff.mpr ⟨rfl, h⟩
  constructor
  · rw [hl, List.length_replicate]
    exact z_score_anomalies_replicate _ _ _
  · rw [hl, List.length_replicate]
    exact mad_anomalies_replicate _ _ _

/-- Witness for C8 on the constant series `[2, 2, 2]` with the default
thresholds 3.0 and 3.5. -/
theorem anomalies_constant_all_false_witness :
    (∀ x ∈ [(2 : ℝ), 2, 2], x = 2) ∧
    z_score_anomalies [(2 : ℝ), 2, 2] 3 = [false, false, false] ∧
    mad_anomalies [(2 : ℝ), 2, 2] (7 / 2) = [false, false, false] := by
  have h := anomalies_constant_all_false [(2 : ℝ), 2, 2] 2 3 (7 / 2)
    (by simp)
  exact ⟨by simp, h.1, h.2⟩

/-- `CausalEdge` dataclass from `causal_engine.py`. -/
structure CausalEdge where
  source : String
  target : String
  weight : ℝ

/-- `CausalGraph` dataclass: a list of directed edges. -/
structure CausalGraph where
  edges : List CausalEdge

/-- `NotearsLiteCausalEngine`: its only state is the clamped L2 penalty. -/
structure NotearsLiteCausalEngine where
  l2_penalty : ℝ

/-- `NotearsLiteCausalEngine.__init__`: stores `max(0.0, l2_penalty)`. -/
noncomputable def mkCausalEngine (l2_penalty : ℝ) : NotearsLiteCausalEngine :=
  ⟨max 0 l2_penalty⟩

/-- `_standardize`: zero mean, unit variance (population variance); a
constant (zero-variance) series maps to all zeros. -/
noncomputable def standardize (series : List ℝ) : List ℝ :=
  if series.length = 0 then []
  else
    let n : ℝ := series.length
    let mean := series.sum / n
    let var := (series.map fun x => (x - mean) * (x - mean)).sum / n
    let std := Real.sqrt var
    if std = 0 then List.replicate series.length 0
    else series.map fun x => (x - mean) / std

/-- `_fit_linear`: ridge-regularised single-coefficient least squares,
`Σ(x·y) / (Σ(x·x) + λ)`, with 0.0 on length mismatch, empty input, or a
zero denominator.  The sums run over `zip(x, y)` exactly as in the Python
loop. -/
noncomputable def fitLinear (l2_penalty : ℝ) (x y : List ℝ) : ℝ :=
  if x.length ≠ y.length ∨ x.length = 0 then 0
  else
    let sum_xx := ((x.zip y).map fun p => p.1 * p.1).sum
    let sum_xy := ((x.zip y).map fun p => p.1 * p.2).sum
    let denom := sum_xx + l2_penalty
    if denom = 0 then 0 else sum_xy / denom

/-- The inner loop of `infer_causal_graph` for one target `tname` with
standardized series `y`: one candidate edge per other variable whose
standardized series has the same nonzero length, kept only when
`|weight| ≥ min_weight_threshold`. -/
noncomputable def candidateEdges (l2_penalty : ℝ)
    (standardized : List (String × List ℝ)) (tname : String) (y : List ℝ)
    (min_weight_threshold : ℝ) : List CausalEdge :=
  ((standardized.filter fun s =>
      decide (s.1 ≠ tname ∧ s.2.length = y.length ∧ s.2.length ≠ 0)).map
    fun s => CausalEdge.mk s.1 tname (fitLinear l2_penalty s.2 y)).filter
    fun e => decide (|e.weight| ≥ min_weight_threshold)

/-- `candidate_edges.sort(key=|weight|, reverse=True)` (stable) followed by
`[:k]`. -/
noncomputable def topK (edges : List CausalEdge) (k : Nat) : List CausalEdge :=
  (edges.mergeSort fun e1 e2 => decide (|e2.weight| ≤ |e1.weight|)).take k

/-- `infer_causal_graph`: standardize every series, build the per-target
candidate edges, truncate to the strongest `max_parents_per_node` per
target only when that cap is set *and positive*, and concatenate the
per-target lists in target order. -/
noncomputable def inferCausalGraph (engine : NotearsLiteCausalEngine)
    (data : List (String × List ℝ)) (max_parents_per_node : Option Int)
    (min_weight_threshold : ℝ) : CausalGraph :=
  let standardized := data.map fun p => (p.1, standardize p.2)
  ⟨(standardized.map fun t =>
      let cands := candidateEdges engine.l2_penalty standardized t.1 t.2
        min_weight_threshold
      match max_parents_per_node with
      | some k => if k > 0 then topK cands k.toNat else cands
      | none => cands).flatten⟩

lemma mem_candidateEdges {l2 : ℝ} {std : List (String × List ℝ)}
    {tname : String} {y : List ℝ} {thr : ℝ} {e : CausalEdge}
    (h : e ∈ candidateEdges l2 std tname y thr) :
    e.target = tname ∧ e.source ≠ tname ∧ |e.weight| ≥ thr ∧
    ∃ x, (e.source, x) ∈ std ∧ x.length = y.length ∧ x.length ≠ 0 ∧
      e.weight = fitLinear l2 x y := by
  unfold candidateEdges at h
  rw [List.mem_filter] at h
  obtain ⟨hmap, hthr⟩ := h
  rw [List.mem_map] at hmap
  obtain ⟨s, hs, rfl⟩ := hmap
  rw [List.mem_filter] at hs
  obtain ⟨hmem, hcond⟩ := hs
  rw [decide_eq_true_eq] at hcond hthr
  obtain ⟨hne, hlen, hnz⟩ := hcond
  exact ⟨rfl, hne, hthr, s.2, hmem, hlen, hnz, rfl⟩

lemma mem_topK {edges : List CausalEdge} {k : Nat} {e : CausalEdge}
    (h : e ∈ topK edges k) : e ∈ edges := by
  unfold topK at h
  have h1 := List.take_subset _ _ h
  exact (List.mergeSort_perm edges _).mem_iff.mp h1

lemma mem_inferCausalGraph {engine : NotearsLiteCausalEngine}
    {data : List (String × List ℝ)} {mp : Option Int} {thr : ℝ}
    {e : CausalEdge} (h : e ∈ (inferCausalGraph engine data mp thr).edges) :
    ∃ t, t ∈ data.map (fun p => (p.1, standardize p.2)) ∧
      e ∈ candidateEdges engine.l2_penalty
        (data.map fun p => (p.1, standardize p.2)) t.1 t.2 thr := by
  unfold inferCausalGraph at h
  rw [List.mem_flatten] at h
  obtain ⟨l, hl, hel⟩ := h
  rw [List.mem_map] at hl
  obtain ⟨t, ht, rfl⟩ := hl
  refine ⟨t, ht, ?_⟩
  cases mp with
  | none => exact hel
  | some k =>
      simp only [] at hel
      by_cases hk : k > 0
      · rw [if_pos hk] at hel
        exact mem_topK hel
      · rw [if_neg hk] at hel
        exact hel

lemma filter_flatten_blocks (f : String × List ℝ → List CausalEdge)
    (hf : ∀ t, ∀ e ∈ f t, e.target = t.1) :
    ∀ (L : List (String × List ℝ)), (L.map Prod.fst).Nodup →
      ∀ tn y, (tn, y) ∈ L →
      ((L.map f).flatten.filter fun e => decide (e.target = tn)) = f (tn, y) := by
  intro L
  induction L with
  | nil => intro _ tn y hmem; simp at hmem
  | cons a L' ih =>
      intro hnodup tn y hmem
      rw [List.map_cons, List.flatten_cons, List.filter_append]
      rw [List.map_cons, List.nodup_cons] at hnodup
      obtain ⟨hnotin, hnodup'⟩ := hnodup
      by_cases ha : a.1 = tn
      · have haeq : a = (tn, y) := by
          rcases List.mem_cons.mp hmem with h | h
          · exact h.symm
          · exfalso
            exact hnotin (ha ▸ (List.mem_map.mpr ⟨(tn, y), h, rfl⟩))
        subst haeq
        have h1 : (f (tn, y)).filter (fun e => decide (e.target = tn)) = f (tn, y) := by
          apply List.filter_eq_self.mpr
          intro e he
          rw [decide_eq_true_eq]
          exact hf _ _ he
        have h2 : ((L'.map f).flatten.filter fun e => decide (e.target = tn)) = [] := by
          apply List.filter_eq_nil_iff.mpr
          intro e he
          rw [List.mem_flatten] at he
          obtain ⟨l, hl, hel⟩ := he
          rw [List.mem_map] at hl
          obtain ⟨t, ht, rfl⟩ := hl
          have htg := hf _ _ hel
          rw [decide_eq_true_eq, htg]
          intro hteq
          exact hnotin (hteq ▸ (List.mem_map.mpr ⟨t, ht, rfl⟩))
        rw [h1, h2, List.append_nil]
      · have h1 : (f a).filter (fun e => decide (e.target = tn)) = [] := by
          apply List.filter_eq_nil_iff.mpr
          intro e he
          rw [decide_eq_true_eq]
          rw [hf _ _ he]
          exact ha
        have hmem' : (tn, y) ∈ L' := by
          rcases List.mem_cons.mp hmem with h | h
          · exfalso; exact ha (by rw [← h])
          · exact h
        rw [h1, List.nil_append]
        exact ih hnodup' tn y hmem'

lemma standardize_replicate (n : Nat) (c : ℝ) :
    standardize (List.replicate n c) = List.replicate n 0 := by
  cases n with
  | zero => simp [standardize]
  | succ m =>
      unfold standardize
      rw [if_neg (by simp)]
      simp only [List.length_replicate]
      have hmean : (List.replicate (m + 1) c).sum / ((m + 1 : Nat) : ℝ) = c := by
        rw [List.sum_replicate, nsmul_eq_mul]
        have hne : ((m + 1 : Nat) : ℝ) ≠ 0 := by positivity
        field_simp
      rw [hmean]
      have hvar : ((List.replicate (m + 1) c).map
          fun x => (x - c) * (x - c)).sum = 0 := by
        rw [List.map_replicate]
        simp
      rw [hvar]
      simp

/-- C4 amended: `infer_causal_graph` standardizes each series independently
(constant series to all-zero); every kept edge carries the ridge weight
`Σ(x·y)/(Σ(x·x)+λ)` of the standardized pair of distinct, equal-length,
nonempty series and satisfies `|weight| ≥ minWeightThreshold`; with no cap
every qualifying ordered pair contributes its edge; a *positive* cap keeps
exactly the top-k candidates per target by `|weight|`; and a non-positive
cap is ignored (identical to passing no cap) rather than truncating. -/
theorem inferCausalGraph_spec (engine : NotearsLiteCausalEngine)
    (data : List (String × List ℝ)) (mp : Option Int) (thr : ℝ) :
    (∀ (n : Nat) (c : ℝ), standardize (List.replicate n c) = List.replicate n 0) ∧
    (∀ e ∈ (inferCausalGraph engine data mp thr).edges,
      |e.weight| ≥ thr ∧
      ∃ x y, (e.source, x) ∈ data ∧ (e.target, y) ∈ data ∧
        (standardize x).length = (standardize y).length ∧
        (standardize x).length ≠ 0 ∧
        e.weight = fitLinear engine.l2_penalty (standardize x) (standardize y)) ∧
    (mp = none → ∀ s t x y, (s, x) ∈ data → (t, y) ∈ data → s ≠ t →
      (standardize x).length = (standardize y).length →
      (standardize x).length ≠ 0 →
      |fitLinear engine.l2_penalty (standardize x) (standardize y)| ≥ thr →
      CausalEdge.mk s t (fitLinear engine.l2_penalty (standardize x) (standardize y))
        ∈ (inferCausalGraph engine data mp thr).edges) ∧
    (∀ k : Int, mp = some k → 0 < k → (data.map Prod.fst).Nodup →
      ∀ t y, (t, y) ∈ data →
        ((inferCausalGraph engine data mp thr).edges.filter
          fun e => decide (e.target = t))
        = topK (candidateEdges engine.l2_penalty
            (data.map fun p => (p.1, standardize p.2)) t (standardize y) thr)
            k.toNat) ∧
    (∀ k : Int, k ≤ 0 →
      inferCausalGraph engine data (some k) thr
        = inferCausalGraph engine data none thr) := by
  refine ⟨standardize_replicate, ?_, ?_, ?_, ?_⟩
  · intro e he
    obtain ⟨t, ht, hc⟩ := mem_inferCausalGraph he
    obtain ⟨htgt, hne, hthr, x, hx, hlen, hnz, hw⟩ := mem_candidateEdges hc
    rw [List.mem_map] at ht hx
    obtain ⟨p, hp, hpe⟩ := ht
    obtain ⟨q, hq, hqe⟩ := hx
    have hq1 : e.source = q.1 := by
      have := congrArg Prod.fst hqe
      simpa using this.symm
    have hq2 : standardize q.2 = x := by
      have := congrArg Prod.snd hqe
      simpa using this
    have hp1 : t.1 = p.1 := by
      have := congrArg Prod.fst hpe
      simpa using this.symm
    have hp2 : standardize p.2 = t.2 := by
      have := congrArg Prod.snd hpe
      simpa using this
    refine ⟨hthr, q.2, p.2, ?_, ?_, ?_, ?_, ?_⟩
    · rw [hq1]; exact hq
    · rw [htgt, hp1]; exact hp
    · rw [hq2, hp2]; exact hlen
    · rw [hq2]; exact hnz
    · rw [hq2, hp2]; exact hw
  · rintro rfl s t x y hsx hty hne hlen hnz hthr
    unfold inferCausalGraph
    rw [List.mem_flatten]
    refine ⟨candidateEdges engine.l2_penalty
        (data.map fun p => (p.1, standardize p.2)) t (standardize y) thr, ?_, ?_⟩
    · rw [List.mem_map]
      exact ⟨(t, standardize y), List.mem_map.mpr ⟨(t, y), hty, rfl⟩, rfl⟩
    · unfold candidateEdges
      rw [List.mem_filter]
      constructor
      · rw [List.mem_map]
        refine ⟨(s, standardize x), ?_, rfl⟩
        rw [List.mem_filter]
        constructor
        · exact List.mem_map.mpr ⟨(s, x), hsx, rfl⟩
        · rw [decide_eq_true_eq]
          exact ⟨hne, hlen, hnz⟩
      · rw [decide_eq_true_eq]
        exact hthr
  · rintro k rfl hk hnodup tn y hmem
    unfold inferCausalGraph
    have happ := filter_flatten_blocks
      (fun t =>
        let cands := candidateEdges engine.l2_penalty
          (data.map fun p => (p.1, standardize p.2)) t.1 t.2 thr
        match some k with
        | some k => if k > 0 then topK cands k.toNat else cands
        | none => cands)
      ?_ (data.map fun p => (p.1, standardize p.2)) ?_ tn (standardize y) ?_
    · rw [happ]
      simp only []
      rw [if_pos hk]
    · intro t e he
      simp only [] at he
      rw [if_pos hk] at he
      exact (mem_candidateEdges (mem_topK he)).1
    · have hfst : (data.map fun p => (p.1, standardize p.2)).map Prod.fst
          = data.map Prod.fst := by
        rw [List.map_map]
        rfl
      rw [hfst]
      exact hnodup
    · exact List.mem_map.mpr ⟨(tn, y), hmem, rfl⟩
  · intro k hk
    unfold inferCausalGraph
    have hfun : ∀ t ∈ (data.map fun p => (p.1, standardize p.2)),
        (let cands := candidateEdges engine.l2_penalty
            (data.map fun p => (p.1, standardize p.2)) t.1 t.2 thr
         match some k with
         | some k => if k > 0 then topK cands k.toNat else cands
         | none => cands)
        = (let cands := candidateEdges engine.l2_penalty
            (data.map fun p => (p.1, standardize p.2)) t.1 t.2 thr
           match (none : Option Int) with
           | some k => if k > 0 then topK cands k.toNat else cands
           | none => cands) := by
      intro t _
      simp only []
      rw [if_neg (by omega)]
    simp only []
    exact congrArg (fun l : List (List CausalEdge) => CausalGraph.mk l.flatten)
      (List.map_congr_left hfun)

lemma mkCausalEngine_zero : (mkCausalEngine 0).l2_penalty = 0 := by
  simp [mkCausalEngine]

lemma standardize_pair : standardize [(1 : ℝ), -1] = [1, -1] := by
  unfold standardize
  rw [if_neg (by simp)]
  simp only [List.length_cons, List.length_nil, List.sum_cons, List.sum_nil,
    List.map_cons, List.map_nil]
  norm_num [Real.sqrt_one]

lemma fitLinear_pair : fitLinear 0 [(1 : ℝ), -1] [(1 : ℝ), -1] = 1 := by
  unfold fitLinear
  rw [if_neg (by simp)]
  simp only [List.zip_cons_cons, List.zip_nil_right, List.map_cons,
    List.map_nil, List.sum_cons, List.sum_nil]
  norm_num

lemma candidateEdges_eval_a :
    candidateEdges 0 [("a", [(1 : ℝ), -1]), ("b", [(1 : ℝ), -1])] "a"
      [(1 : ℝ), -1] (1 / 20) = [CausalEdge.mk "b" "a" 1] := by
  unfold candidateEdges
  have h3 : |(1 : ℝ)| ≥ 1 / 20 := by norm_num
  simp [List.filter_cons, List.filter_nil, fitLinear_pair, h3]
  norm_num

lemma candidateEdges_eval_b :
    candidateEdges 0 [("a", [(1 : ℝ), -1]), ("b", [(1 : ℝ), -1])] "b"
      [(1 : ℝ), -1] (1 / 20) = [CausalEdge.mk "a" "b" 1] := by
  unfold candidateEdges
  have h3 : |(1 : ℝ)| ≥ 1 / 20 := by norm_num
  simp [List.filter_cons, List.filter_nil, fitLinear_pair, h3]
  norm_num

lemma inferCausalGraph_eval :
    (inferCausalGraph (mkCausalEngine 0)
        [("a", [(1 : ℝ), -1]), ("b", [(1 : ℝ), -1])] (some 0) (1 / 20)).edges
      = [CausalEdge.mk "b" "a" 1, CausalEdge.mk "a" "b" 1] := by
  unfold inferCausalGraph
  simp only [List.map_cons, List.map_nil, standardize_pair, mkCausalEngine_zero]
  simp only [candidateEdges_eval_a, candidateEdges_eval_b]
  simp

/-- C4 counterexample: with `maxParentsPerNode` set to 0 the claim demands
at most top-0 = zero edges per target, but on concrete two-variable data
(both series `[1, -1]`, λ = 0, threshold 0.05) the code keeps an edge with
target "a" — the truncation is skipped for non-positive caps. -/
theorem inferCausalGraph_cap_zero_keeps_edges :
    ¬ (((inferCausalGraph (mkCausalEngine 0)
        [("a", [(1 : ℝ), -1]), ("b", [(1 : ℝ), -1])] (some 0) (1 / 20)).edges.filter
          fun e => decide (e.target = "a")).length ≤ 0) := by
  rw [inferCausalGraph_eval]
  simp

/-- C9: the graph returned by `infer_causal_graph` contains no self-edges,
for every input mapping, parent cap and weight threshold. -/
theorem inferCausalGraph_no_self_edges (engine : NotearsLiteCausalEngine)
    (data : List (String × List ℝ)) (mp : Option Int) (thr : ℝ) :
    ∀ e ∈ (inferCausalGraph engine data mp thr).edges, e.source ≠ e.target := by
  intro e he
  obtain ⟨t, ht, hc⟩ := mem_inferCausalGraph he
  obtain ⟨htgt, hne, -⟩ := mem_candidateEdges hc
  rw [htgt]
  exact hne

/-- Witness for C9 at a concrete graph: the edge "b" → "a" produced on
two-variable data has distinct endpoints. -/
theorem inferCausalGraph_no_self_edges_witness :
    (CausalEdge.mk "b" "a" (1 : ℝ)).source ≠ (CausalEdge.mk "b" "a" (1 : ℝ)).target :=
  inferCausalGraph_no_self_edges (mkCausalEngine 0)
    [("a", [(1 : ℝ), -1]), ("b", [(1 : ℝ), -1])] (some 0) (1 / 20)
    (CausalEdge.mk "b" "a" 1) (by rw [inferCausalGraph_eval]; simp)

/-- Witness for the amended C4 at a concrete instance of the positive-cap
conjunct (`maxParentsPerNode = 1` on two-variable data). -/
theorem inferCausalGraph_spec_witness :
    ((inferCausalGraph (mkCausalEngine 0)
        [("a", [(1 : ℝ), -1]), ("b", [(1 : ℝ), -1])] (some 1) (1 / 20)).edges.filter
      fun e => decide (e.target = "a"))
    = topK (candidateEdges (mkCausalEngine 0).l2_penalty
        ([("a", [(1 : ℝ), -1]), ("b", [(1 : ℝ), -1])].map
          fun p => (p.1, standardize p.2)) "a" (standardize [(1 : ℝ), -1]) (1 / 20))
        ((1 : Int)).toNat :=
  (inferCausalGraph_spec (mkCausalEngine 0)
      [("a", [(1 : ℝ), -1]), ("b", [(1 : ℝ), -1])] (some 1) (1 / 20)).2.2.2.1
    1 rfl (by norm_num) (by decide) "a" [(1 : ℝ), -1] (by simp)

/-! ### Redaction filter (claim C3) -/


/-! Character classes (ASCII, matching Python's regex classes over ASCII input). -/

def isDigitChar (c : Char) : Bool := c.isDigit

def isWordChar (c : Char) : Bool := c.isAlphanum || c = '_'

def isUpperChar (c : Char) : Bool := 'A' ≤ c && c ≤ 'Z'

def isLetterChar (c : Char) : Bool := c.isAlpha

def isLocalChar (c : Char) : Bool :=
  c.isAlphanum || c = '.' || c = '_' || c = '%' || c = '+' || c = '-'

def isDomainChar (c : Char) : Bool := c.isAlphanum || c = '.' || c = '-'

def isSpaceChar (c : Char) : Bool :=
  c = ' ' || c = '\t' || c = '\n' || c = '\r' || c = '\x0c' || c = '\x0b'

def isPhoneMidChar (c : Char) : Bool := isDigitChar c || c = '-' || isSpaceChar c

def isSepChar (c : Char) : Bool := c = ' ' || c = '-'

def isAlnumCapChar (c : Char) : Bool := isUpperChar c || isDigitChar c

/-- Length of the maximal prefix of `s` whose characters satisfy `p`
(a regex character-class run). -/
def runLen (p : Char → Bool) (s : List Char) : Nat := (s.takeWhile p).length

/-- Left context `prev` is absent or a non-word character: a `\b` holds before a word
character in this left context. -/
def prevNonWord (prev : Option Char) : Bool :=
  match prev with
  | none => true
  | some c => !isWordChar c

/-- A matcher: given the preceding character (for `\b`) and the remaining
input, the length of the regex match anchored at this position, if any. -/
abbrev Matcher := Option Char → List Char → Option Nat

/-- The next character (if any) is not a word character: `\b` holds after
a word character at this position. -/
def notWordHead (s : List Char) : Bool :=
  match s.head? with
  | some c => !isWordChar c
  | none => true

/-- Backtracking search for the email pattern's `\.[A-Za-z]{2,}` split of
the maximal domain run `d`: the largest index `j ≥ 1` (tried from the
greedy-longest domain prefix downward) with a dot at `j` followed by at
least two letters. Returns the dot index and the greedy tld length. -/
def emailDotSearch (d : List Char) : Nat → Option (Nat × Nat)
  | 0 => none
  | j + 1 =>
      if d.get? (j + 1) = some '.' then
        let T := runLen isLetterChar (d.drop (j + 2))
        if 2 ≤ T then some (j + 1, T) else emailDotSearch d j
      else emailDotSearch d j

/-- Pattern `[A-Za-z0-9._%+-]+@[A-Za-z0-9.-]+\.[A-Za-z]{2,}` anchored at the head:
maximal local run, a literal `@`, then the backtracking domain/tld split. -/
def emailMatchAt : Matcher := fun _ s =>
  let L := runLen isLocalChar s
  if L = 0 then none
  else if s.get? L = some '@' then
    let d := s.drop (L + 1)
    match emailDotSearch d (runLen isDomainChar d - 1) with
    | some (j, T) => some (L + 1 + j + 1 + T)
    | none => none
  else none

/-- Backtracking search for the phone pattern's final `\d`: the largest
`j ≥ 6` (from the greedy-longest middle run downward) with a digit at
index `j` of the run. -/
def phoneDigitSearch (rest : List Char) : Nat → Option Nat
  | 0 => none
  | j + 1 =>
      if j + 1 < 6 then none
      else if (rest.get? (j + 1)).any isDigitChar then some (j + 1)
      else phoneDigitSearch rest j

/-- Pattern `\+?\d[\d\-\s]{6,}\d` anchored at the head. -/
def phoneMatchAt : Matcher := fun _ s =>
  let pl : Nat := if s.head? = some '+' then 1 else 0
  match s.drop pl with
  | c :: rest =>
      if isDigitChar c then
        match phoneDigitSearch rest (runLen isPhoneMidChar rest - 1) with
        | some j => some (pl + 1 + j + 1)
        | none => none
      else none
  | [] => none

/-- One `\d{1,3}` group: the digit run must have length 1–3 (a longer run
cannot back off, because the character after any shorter take is again a
digit, never the required follower). -/
def ipRun (s : List Char) : Option (Nat × List Char) :=
  let r := runLen isDigitChar s
  if 1 ≤ r && r ≤ 3 then some (r, s.drop r) else none

/-- Pattern `\b\d{1,3}(?:\.\d{1,3}){3}\b` anchored at the head. -/
def ipMatchAt : Matcher := fun prev s =>
  if prevNonWord prev then
    match ipRun s with
    | some (r1, s1) =>
        if s1.head? = some '.' then
          match ipRun s1.tail with
          | some (r2, s3) =>
              if s3.head? = some '.' then
                match ipRun s3.tail with
                | some (r3, s5) =>
                    if s5.head? = some '.' then
                      match ipRun s5.tail with
                      | some (r4, s7) =>
                          if notWordHead s7 then some (r1 + 1 + r2 + 1 + r3 + 1 + r4)
                          else none
                      | none => none
                    else none
                | none => none
              else none
          | none => none
        else none
    | none => none
  else none

/-- The card pattern's digit chain: adjacent-digit runs joined by `[ -]`
gaps.  The backtracking engine exits at the first run boundary where the
group count reaches 13 (exit is preferred over lazy separator expansion),
fails if the count passes 19 inside a run, and demands `\b` after the
final digit. -/
def cardLoop (rem : List Char) (cum : Nat) : Option Nat :=
  let r := runLen isDigitChar rem
  if hr : r = 0 then none
  else if 13 ≤ cum + r then
    if 19 < cum + r then none
    else if notWordHead (rem.drop r) then some r
    else none
  else
    let g := runLen isSepChar (rem.drop r)
    if 1 ≤ g && ((rem.drop (r + g)).head?.any isDigitChar) then
      match cardLoop (rem.drop (r + g)) (cum + r) with
      | some len => some (r + g + len)
      | none => none
    else none
termination_by rem.length
decreasing_by
  have h1 : r ≤ rem.length := by
    simpa [runLen] using (List.takeWhile_sublist (l := rem) (p := isDigitChar)).length_le
  have h2 : 1 ≤ r := Nat.one_le_iff_ne_zero.mpr hr
  simp [List.length_drop]
  omega

/-- Pattern `\b(?:\d[ -]*?){13,19}\b` anchored at the head. -/
def cardMatchAt : Matcher := fun prev s =>
  if !prevNonWord prev then none
  else match s.head? with
  | some c => if isDigitChar c then cardLoop s 0 else none
  | none => none

/-- Pattern `\b[A-Z]{2}\d{2}[A-Z0-9]{10,30}\b` anchored at the head: the trailing
alphanumeric run must have length 10–30 exactly (a longer run cannot back
off: each shorter take is followed by a word character). -/
def ibanMatchAt : Matcher := fun prev s =>
  if !prevNonWord prev then none
  else match s with
  | c1 :: c2 :: c3 :: c4 :: rest =>
      if isUpperChar c1 && isUpperChar c2 && isDigitChar c3 && isDigitChar c4 then
        let R := runLen isAlnumCapChar rest
        if 10 ≤ R && R ≤ 30 then
          if notWordHead (rest.drop R) then some (4 + R) else none
        else none
      else none
  | _ => none

/-- Model of `re.Pattern.sub(replacement, ·)`: scan left to right, replacing each
leftmost non-overlapping match and resuming after it; `prev` carries the
character preceding the current position in the *original* text (as
Python's `\b` sees it). -/
def globalSub (m : Matcher) (repl : List Char) (prev : Option Char)
    (s : List Char) : List Char :=
  match s with
  | [] => []
  | c :: rest =>
      match m prev (c :: rest) with
      | some len =>
          repl ++ globalSub m repl ((c :: rest).get? (len - 1)) (rest.drop (len - 1))
      | none => c :: globalSub m repl (some c) rest
termination_by s.length
decreasing_by
  · simp [List.length_drop]
    omega
  · simp

/-- The default replacement token. -/
def REPL : List Char := "[REDACTED]".toList

/-- No match of `m` starts at any position of `s`, where the scan at the
head sees `prev` as its preceding character and later positions see the
actual preceding character. -/
def NoMatch (m : Matcher) : Option Char → List Char → Prop
  | _, [] => True
  | prev, c :: rest => m prev (c :: rest) = none ∧ NoMatch m (some c) rest

lemma noMatch_globalSub_id {m : Matcher} {repl : List Char} :
    ∀ {prev s}, NoMatch m prev s → globalSub m repl prev s = s := by
  intro prev s
  induction s generalizing prev with
  | nil => intro _; simp [globalSub]
  | cons c rest ih =>
      intro h
      obtain ⟨h1, h2⟩ := h
      unfold globalSub
      rw [h1]
      rw [ih h2]

lemma noMatch_drop {m : Matcher} :
    ∀ (s : List Char) (prev : Option Char) (n : Nat), 1 ≤ n →
      NoMatch m prev s → NoMatch m (s.get? (n - 1)) (s.drop n) := by
  intro s
  induction s with
  | nil => intro prev n _ _; cases n <;> trivial
  | cons c rest ih =>
      intro prev n hn h
      match n, hn with
      | 1, _ => exact h.2
      | (k+2), _ =>
          have := ih (some c) (k+1) (by omega) h.2
          simpa using this

lemma noMatch_prevSwap {m : Matcher} {p q : Option Char} :
    ∀ {s}, NoMatch m p s → (∀ c rest, s = c :: rest → m q (c :: rest) = none) →
      NoMatch m q s := by
  intro s h hq
  cases s with
  | nil => trivial
  | cons c rest => exact ⟨hq c rest rfl, h.2⟩

/-- The graph of `globalSub` as an inductive relation, for structured
induction over the scan. -/
inductive Subbed (B : Matcher) (repl : List Char) :
    Option Char → List Char → List Char → Prop
  | nil (prev : Option Char) : Subbed B repl prev [] []
  | raw (prev : Option Char) (c : Char) (rest out : List Char)
      (hfail : B prev (c :: rest) = none)
      (htail : Subbed B repl (some c) rest out) :
      Subbed B repl prev (c :: rest) (c :: out)
  | tok (prev : Option Char) (c : Char) (rest out : List Char) (len : Nat)
      (hmatch : B prev (c :: rest) = some len)
      (htail : Subbed B repl ((c :: rest).get? (len - 1)) (rest.drop (len - 1)) out) :
      Subbed B repl prev (c :: rest) (repl ++ out)

lemma globalSub_subbed_aux (B : Matcher) (repl : List Char) :
    ∀ (n : Nat) (s : List Char), s.length ≤ n → ∀ (prev : Option Char),
      Subbed B repl prev s (globalSub B repl prev s) := by
  intro n
  induction n with
  | zero =>
      intro s hs prev
      have : s = [] := List.eq_nil_of_length_eq_zero (Nat.le_zero.mp hs)
      subst this
      show Subbed B repl prev [] (globalSub B repl prev [])
      simp only [globalSub]
      exact Subbed.nil prev
  | succ k ih =>
      intro s hs prev
      match s with
      | [] =>
          show Subbed B repl prev [] (globalSub B repl prev [])
          simp only [globalSub]
          exact Subbed.nil prev
      | c :: rest =>
          unfold globalSub
          cases hm : B prev (c :: rest) with
          | none =>
              refine Subbed.raw prev c rest _ hm (ih rest ?_ (some c))
              simp at hs
              omega
          | some len =>
              refine Subbed.tok prev c rest _ len hm ?_
              refine ih _ ?_ _
              have := List.length_drop (len - 1) rest
              simp at hs ⊢
              omega

lemma globalSub_subbed (B : Matcher) (repl : List Char) (s : List Char)
    (prev : Option Char) :
    Subbed B repl prev s (globalSub B repl prev s) :=
  globalSub_subbed_aux B repl s.length s le_rfl prev

/-- The head character seen before position `|w|` when the scan has walked
through the raw prefix `w` from left context `prev`. -/
def lastPrev (prev : Option Char) (w : List Char) : Option Char :=
  match w.getLast? with
  | some c => some c
  | none => prev

lemma lastPrev_cons (prev : Option Char) (c : Char) (w : List Char) :
    lastPrev prev (c :: w) = lastPrev (some c) w := by
  cases w with
  | nil => rfl
  | cons d w' =>
      have hsome : (d :: w').getLast?.isSome := by
        cases hg : (d :: w').getLast? with
        | none => exact absurd (List.getLast?_eq_none_iff.mp hg) (by simp)
        | some e => rfl
      obtain ⟨e, he⟩ := Option.isSome_iff_exists.mp hsome
      have he2 : (c :: d :: w').getLast? = some e := by
        rw [List.getLast?_cons_cons]
        exact he
      simp only [lastPrev, he, he2]

/-- Every `Subbed` output is either the raw input (no match anywhere) or a
raw prefix, the replacement for the leftmost match, and a recursively
substituted remainder. -/
lemma subbed_decomp {B : Matcher} {repl : List Char} :
    ∀ {prev s out}, Subbed B repl prev s out →
      out = s ∨ ∃ w c rest out₂ len,
        s = w ++ c :: rest ∧ out = w ++ (repl ++ out₂) ∧
        B (lastPrev prev w) (c :: rest) = some len ∧
        Subbed B repl ((c :: rest).get? (len - 1)) (rest.drop (len - 1)) out₂ := by
  intro prev s out h
  induction h with
  | nil => exact Or.inl rfl
  | raw prev c rest out hfail htail ih =>
      rcases ih with heq | ⟨w, d, r2, out₂, len, hs, hout, hB, hsub⟩
      · exact Or.inl (by rw [heq])
      · refine Or.inr ⟨c :: w, d, r2, out₂, len, ?_, ?_, ?_, hsub⟩
        · rw [hs]; rfl
        · rw [hout]; rfl
        · rw [lastPrev_cons]; exact hB
  | tok prev c rest out len hmatch htail =>
      exact Or.inr ⟨[], c, rest, out, len, rfl, rfl, hmatch, htail⟩

lemma runLen_le (p : Char → Bool) (s : List Char) : runLen p s ≤ s.length := by
  simpa [runLen] using (List.takeWhile_sublist (l := s) (p := p)).length_le

lemma runLen_cons (p : Char → Bool) (c : Char) (s : List Char) :
    runLen p (c :: s) = if p c then runLen p s + 1 else 0 := by
  by_cases h : p c
  · simp [runLen, List.takeWhile_cons, h]
  · simp [runLen, List.takeWhile_cons, h]

lemma runLen_nil (p : Char → Bool) : runLen p [] = 0 := rfl

lemma runLen_sat (p : Char → Bool) :
    ∀ (s : List Char) (i : Nat), i < runLen p s →
      ∃ c, s.get? i = some c ∧ p c = true := by
  intro s
  induction s with
  | nil => intro i hi; simp [runLen_nil] at hi
  | cons c rest ih =>
      intro i hi
      rw [runLen_cons] at hi
      by_cases hc : p c
      · rw [if_pos hc] at hi
        cases i with
        | zero => exact ⟨c, rfl, hc⟩
        | succ j => exact ih j (by omega)
      · rw [if_neg hc] at hi
        omega

lemma runLen_stop (p : Char → Bool) :
    ∀ (s : List Char) (c : Char), s.get? (runLen p s) = some c → p c = false := by
  intro s
  induction s with
  | nil => intro c h; simp at h
  | cons d rest ih =>
      intro c h
      rw [runLen_cons] at h
      by_cases hd : p d
      · rw [if_pos hd] at h
        exact ih c (by simpa using h)
      · rw [if_neg hd] at h
        simp at h
        rw [← h]
        simpa using hd

lemma runLen_eq_length (p : Char → Bool) :
    ∀ (s : List Char), runLen p s = s.length ↔ ∀ c ∈ s, p c = true := by
  intro s
  induction s with
  | nil => simp [runLen_nil]
  | cons c rest ih =>
      rw [runLen_cons]
      by_cases hc : p c
      · rw [if_pos hc]
        simp [hc, ih]
      · rw [if_neg hc]
        constructor
        · intro h; simp at h
        · intro h
          exact absurd (h c (by simp)) (by simpa using hc)

lemma runLen_append_stop (p : Char → Bool) (w u : List Char)
    (h : runLen p w < w.length) : runLen p (w ++ u) = runLen p w := by
  induction w with
  | nil => simp [runLen_nil] at h
  | cons c rest ih =>
      rw [List.cons_append, runLen_cons, runLen_cons]
      by_cases hc : p c
      · rw [if_pos hc, if_pos hc]
        rw [runLen_cons, if_pos hc] at h
        simp only [List.length_cons] at h
        rw [ih (by omega)]
      · rw [if_neg hc, if_neg hc]

lemma runLen_append_full (p : Char → Bool) (w u : List Char)
    (h : runLen p w = w.length) : runLen p (w ++ u) = w.length + runLen p u := by
  induction w with
  | nil => simp
  | cons c rest ih =>
      rw [runLen_cons] at h
      by_cases hc : p c
      · rw [if_pos hc] at h
        rw [List.cons_append, runLen_cons, if_pos hc]
        rw [ih (by simpa using h)]
        simp
        omega
      · rw [if_neg hc] at h
        simp at h

lemma runLen_append_le (p : Char → Bool) (w u : List Char) :
    runLen p w ≤ runLen p (w ++ u) := by
  rcases lt_or_eq_of_le (runLen_le p w) with h | h
  · rw [runLen_append_stop p w u h]
  · rw [runLen_append_full p w u h]
    omega

lemma runLen_agree_prefix (p : Char → Bool) (w u v : List Char)
    (h : runLen p (w ++ u) < w.length) : runLen p (w ++ v) = runLen p (w ++ u) := by
  have hw : runLen p w < w.length := by
    rcases lt_or_eq_of_le (runLen_le p w) with h1 | h1
    · exact h1
    · exfalso
      have := runLen_append_le p w u
      omega
  rw [runLen_append_stop p w u hw, runLen_append_stop p w v hw]

lemma drop_cons_eq (c : Char) (rest : List Char) (len : Nat) (h : 1 ≤ len) :
    (c :: rest).drop len = rest.drop (len - 1) := by
  match len, h with
  | (k+1), _ => simp

/-- Core preservation argument: a match of `A` on a string whose tail has
been rewritten by `B` (leftmost `B`-match replaced by the token) yields a
match of `A` on the original string, or is impossible. -/
lemma master_pres {A B : Matcher}
    (hcore : ∀ prev w c rest z ℓ len, A prev (w ++ '[' :: z) = some ℓ →
      B (lastPrev prev w) (c :: rest) = some len → ¬ A prev (w ++ c :: rest) = none)
    (htok : ∀ prev rest, NoMatch A (some ']') rest → NoMatch A prev (REPL ++ rest))
    (hafter : ∀ prev₀ c₀ rest₀ len out₂, B prev₀ (c₀ :: rest₀) = some len →
      Subbed B REPL ((c₀ :: rest₀).get? (len - 1)) (rest₀.drop (len - 1)) out₂ →
      NoMatch A ((c₀ :: rest₀).get? (len - 1)) out₂ →
      NoMatch A (some ']') out₂)
    (hBpos : ∀ p s ℓ, B p s = some ℓ → 1 ≤ ℓ) :
    ∀ prev s out, Subbed B REPL prev s out → NoMatch A prev s →
      NoMatch A prev out := by
  intro prev s out h
  induction h with
  | nil => intro _; trivial
  | raw prev c rest out hfail hsub ih =>
      intro hNo
      obtain ⟨hA0, hAtail⟩ := hNo
      refine ⟨?_, ih hAtail⟩
      by_contra hsome
      rcases subbed_decomp (Subbed.raw prev c rest out hfail hsub) with heq | hdec
      · rw [heq] at hsome
        exact hsome hA0
      · obtain ⟨w, d, r2, out₂, len, hs, hout, hB, -⟩ := hdec
        rw [hout] at hsome
        have hshape : A prev (w ++ '[' :: ("REDACTED]".toList ++ out₂)) ≠ none := by
          simpa [REPL] using hsome
        cases hA : A prev (w ++ '[' :: ("REDACTED]".toList ++ out₂)) with
        | none => exact hshape hA
        | some ℓ =>
            refine hcore prev w d r2 _ ℓ len hA hB ?_
            rw [← hs]
            exact hA0
  | tok prev c rest out len hmatch hsub ih =>
      intro hNo
      have hlen := hBpos _ _ _ hmatch
      have hdropNM : NoMatch A ((c :: rest).get? (len - 1)) (rest.drop (len - 1)) := by
        have := noMatch_drop (c :: rest) prev len hlen hNo
        rwa [drop_cons_eq c rest len hlen] at this
      exact htok prev out (hafter prev c rest len out hmatch hsub (ih hdropNM))

/-- Core completeness argument: after `B`'s own global substitution no
`B`-match remains. -/
lemma master_compl {B : Matcher}
    (hcore : ∀ prev w c rest z ℓ len, B prev (w ++ '[' :: z) = some ℓ →
      B (lastPrev prev w) (c :: rest) = some len → ¬ B prev (w ++ c :: rest) = none)
    (htok : ∀ prev rest, NoMatch B (some ']') rest → NoMatch B prev (REPL ++ rest))
    (hafter : ∀ prev₀ c₀ rest₀ len out₂, B prev₀ (c₀ :: rest₀) = some len →
      Subbed B REPL ((c₀ :: rest₀).get? (len - 1)) (rest₀.drop (len - 1)) out₂ →
      NoMatch B ((c₀ :: rest₀).get? (len - 1)) out₂ →
      NoMatch B (some ']') out₂) :
    ∀ prev s out, Subbed B REPL prev s out → NoMatch B prev out := by
  intro prev s out h
  induction h with
  | nil => trivial
  | raw prev c rest out hfail hsub ih =>
      refine ⟨?_, ih⟩
      by_contra hsome
      rcases subbed_decomp (Subbed.raw prev c rest out hfail hsub) with heq | hdec
      · rw [heq] at hsome
        exact hsome hfail
      · obtain ⟨w, d, r2, out₂, len, hs, hout, hB, -⟩ := hdec
        rw [hout] at hsome
        cases hA : B prev (w ++ '[' :: ("REDACTED]".toList ++ out₂)) with
        | none => exact hsome (by simpa [REPL] using hA)
        | some ℓ =>
            refine hcore prev w d r2 _ ℓ len hA hB ?_
            rw [← hs]
            exact hfail
  | tok prev c rest out len hmatch hsub ih =>
      exact htok prev out (hafter prev c rest len out hmatch hsub ih)

lemma runLen_append_bound (p : Char → Bool) (w z : List Char) (d : Char)
    (hd : p d = false) : runLen p (w ++ d :: z) ≤ w.length := by
  by_contra hgt
  push_neg at hgt
  obtain ⟨c, hc, hpc⟩ := runLen_sat p (w ++ d :: z) w.length hgt
  rw [List.get?_append_right (le_refl w.length)] at hc
  simp at hc
  rw [← hc] at hpc
  rw [hpc] at hd
  exact absurd hd (by simp)

lemma runLen_ge (p : Char → Bool) :
    ∀ (s : List Char) (k : Nat),
      (∀ i, i < k → ∃ c, s.get? i = some c ∧ p c = true) → k ≤ runLen p s := by
  intro s
  induction s with
  | nil =>
      intro k hk
      cases k with
      | zero => simp
      | succ m =>
          obtain ⟨c, hc, -⟩ := hk 0 (by omega)
          simp at hc
  | cons a rest ih =>
      intro k hk
      cases k with
      | zero => simp
      | succ m =>
          obtain ⟨c, hc, hpc⟩ := hk 0 (by omega)
          simp at hc
          rw [runLen_cons, hc, hpc]
          have := ih m (fun i hi => by
            obtain ⟨e, he, hpe⟩ := hk (i + 1) (by omega)
            exact ⟨e, by simpa using he, hpe⟩)
          simp
          omega

lemma get?_append_lt (w x : List Char) (i : Nat) (h : i < w.length) :
    (w ++ x).get? i = w.get? i := List.get?_append h

lemma phoneDigitSearch_sound (rest : List Char) :
    ∀ (j₀ j : Nat), phoneDigitSearch rest j₀ = some j →
      6 ≤ j ∧ j ≤ j₀ ∧ ∃ c, rest.get? j = some c ∧ isDigitChar c = true := by
  intro j₀
  induction j₀ with
  | zero => intro j h; simp [phoneDigitSearch] at h
  | succ k ih =>
      intro j h
      unfold phoneDigitSearch at h
      by_cases h6 : k + 1 < 6
      · rw [if_pos h6] at h
        simp at h
      · rw [if_neg h6] at h
        by_cases hd : (rest.get? (k + 1)).any isDigitChar
        · rw [if_pos hd] at h
          cases h
          refine ⟨by omega, le_refl _, ?_⟩
          cases hg : rest.get? (k + 1) with
          | none => rw [hg] at hd; simp at hd
          | some c =>
              rw [hg] at hd
              exact ⟨c, rfl, by simpa using hd⟩
        · rw [if_neg hd] at h
          obtain ⟨a, b, c⟩ := ih j h
          exact ⟨a, by omega, c⟩

lemma phoneDigitSearch_complete (rest : List Char) :
    ∀ (j₀ j : Nat), 6 ≤ j → j ≤ j₀ →
      (∃ c, rest.get? j = some c ∧ isDigitChar c = true) →
      (phoneDigitSearch rest j₀).isSome := by
  intro j₀
  induction j₀ with
  | zero => intro j h6 hle _; omega
  | succ k ih =>
      intro j h6 hle hdig
      unfold phoneDigitSearch
      rw [if_neg (by omega)]
      by_cases hd : (rest.get? (k + 1)).any isDigitChar
      · rw [if_pos hd]
        simp
      · rw [if_neg hd]
        rcases Nat.lt_or_ge j (k + 1) with hlt | hge
        · exact ih j h6 (by omega) hdig
        · exfalso
          have hj : j = k + 1 := by omega
          obtain ⟨c, hc, hdc⟩ := hdig
          rw [hj] at hc
          rw [hc] at hd
          simp [hdc] at hd

/-- EXT for the phone pattern: a phone match on a token-truncated tail
exists on any other tail, because all of its material lies inside the raw
prefix. -/
lemma phone_ext (prev : Option Char) (w z : List Char) (ℓ : Nat)
    (h : phoneMatchAt prev (w ++ '[' :: z) = some ℓ) (u : List Char) :
    phoneMatchAt prev (w ++ u) ≠ none := by
  match w with
  | [] =>
      exfalso
      have : phoneMatchAt prev ('[' :: z) = none := by
        unfold phoneMatchAt
        simp [isDigitChar]
      rw [List.nil_append] at h
      rw [this] at h
      exact absurd h (by simp)
  | a :: w₁ =>
      have hhead : ∀ (x : List Char), ((a :: w₁) ++ x).head? = some a := by
        intro x; rfl
      by_cases ha : a = '+'
      · subst ha
        have hpl : ∀ (x : List Char),
            (if (('+' :: w₁) ++ x).head? = some '+' then (1 : Nat) else 0) = 1 := by
          intro x; simp [hhead]
        match w₁ with
        | [] =>
            exfalso
            unfold phoneMatchAt at h
            rw [hpl] at h
            simp [isDigitChar] at h
        | b :: w₂ =>
            unfold phoneMatchAt at h ⊢
            rw [hpl] at h
            rw [hpl]
            simp only [List.cons_append, List.drop_succ_cons, List.drop_zero] at h ⊢
            by_cases hb : isDigitChar b
            · rw [if_pos hb] at h ⊢
              cases hsea : phoneDigitSearch (w₂ ++ '[' :: z)
                  (runLen isPhoneMidChar (w₂ ++ '[' :: z) - 1) with
              | none => rw [hsea] at h; exact absurd h (by simp)
              | some j =>
                  have hs := phoneDigitSearch_sound (w₂ ++ '[' :: z) _ j hsea
                  obtain ⟨hj6, hjle, c, hc, hdig⟩ := hs
                  have hR := runLen_append_bound isPhoneMidChar w₂ z '['
                    (by decide)
                  have hjlt : j < runLen isPhoneMidChar (w₂ ++ '[' :: z) := by
                    omega
                  have hjw : j < w₂.length := by omega
                  have hcw : w₂.get? j = some c := by
                    rw [get?_append_lt w₂ ('[' :: z) j hjw] at hc
                    exact hc
                  have hRu : runLen isPhoneMidChar (w₂ ++ '[' :: z)
                      ≤ runLen isPhoneMidChar (w₂ ++ u) := by
                    apply runLen_ge
                    intro i hi
                    obtain ⟨e, he, hpe⟩ := runLen_sat _ _ i hi
                    have hiw : i < w₂.length := by omega
                    refine ⟨e, ?_, hpe⟩
                    rw [get?_append_lt w₂ ('[' :: z) i hiw] at he
                    rw [get?_append_lt w₂ u i hiw]
                    exact he
                  have hcomp := phoneDigitSearch_complete (w₂ ++ u)
                    (runLen isPhoneMidChar (w₂ ++ u) - 1) j hj6 (by omega)
                    ⟨c, by rw [get?_append_lt w₂ u j hjw]; exact hcw, hdig⟩
                  cases hsea2 : phoneDigitSearch (w₂ ++ u)
                      (runLen isPhoneMidChar (w₂ ++ u) - 1) with
                  | none => rw [hsea2] at hcomp; exact absurd hcomp (by simp)
                  | some j2 => simp
            · rw [if_neg hb] at h
              exact absurd h (by simp)
      · have hpl : ∀ (x : List Char),
            (if ((a :: w₁) ++ x).head? = some '+' then (1 : Nat) else 0) = 0 := by
          intro x
          rw [hhead]
          simp [ha]
        unfold phoneMatchAt at h ⊢
        rw [hpl] at h
        rw [hpl]
        simp only [List.cons_append, List.drop_zero] at h ⊢
        by_cases hb : isDigitChar a
        · rw [if_pos hb] at h ⊢
          cases hsea : phoneDigitSearch (w₁ ++ '[' :: z)
              (runLen isPhoneMidChar (w₁ ++ '[' :: z) - 1) with
          | none => rw [hsea] at h; exact absurd h (by simp)
          | some j =>
              have hs := phoneDigitSearch_sound (w₁ ++ '[' :: z) _ j hsea
              obtain ⟨hj6, hjle, c, hc, hdig⟩ := hs
              have hR := runLen_append_bound isPhoneMidChar w₁ z '[' (by decide)
              have hjlt : j < runLen isPhoneMidChar (w₁ ++ '[' :: z) := by omega
              have hjw : j < w₁.length := by omega
              have hcw : w₁.get? j = some c := by
                rw [get?_append_lt w₁ ('[' :: z) j hjw] at hc
                exact hc
              have hRu : runLen isPhoneMidChar (w₁ ++ '[' :: z)
                  ≤ runLen isPhoneMidChar (w₁ ++ u) := by
                apply runLen_ge
                intro i hi
                obtain ⟨e, he, hpe⟩ := runLen_sat _ _ i hi
                have hiw : i < w₁.length := by omega
                refine ⟨e, ?_, hpe⟩
                rw [get?_append_lt w₁ ('[' :: z) i hiw] at he
                rw [get?_append_lt w₁ u i hiw]
                exact he
              have hcomp := phoneDigitSearch_complete (w₁ ++ u)
                (runLen isPhoneMidChar (w₁ ++ u) - 1) j hj6 (by omega)
                ⟨c, by rw [get?_append_lt w₁ u j hjw]; exact hcw, hdig⟩
              cases hsea2 : phoneDigitSearch (w₁ ++ u)
                  (runLen isPhoneMidChar (w₁ ++ u) - 1) with
              | none => rw [hsea2] at hcomp; exact absurd hcomp (by simp)
              | some j2 => simp
        · rw [if_neg hb] at h
          exact absurd h (by simp)

lemma emailTail_ne_none (d : List Char) (L : Nat)
    (h : (emailDotSearch d (runLen isDomainChar d - 1)).isSome) :
    (match emailDotSearch d (runLen isDomainChar d - 1) with
     | some (j, T) => some (L + 1 + j + 1 + T)
     | none => (none : Option Nat)) ≠ none := by
  cases hs : emailDotSearch d (runLen isDomainChar d - 1) with
  | none => rw [hs] at h; simp at h
  | some jT =>
      obtain ⟨j, T⟩ := jT
      simp

lemma emailDotSearch_sound (d : List Char) :
    ∀ (j₀ j T : Nat), emailDotSearch d j₀ = some (j, T) →
      1 ≤ j ∧ j ≤ j₀ ∧ d.get? j = some '.' ∧
      T = runLen isLetterChar (d.drop (j + 1)) ∧ 2 ≤ T := by
  intro j₀
  induction j₀ with
  | zero => intro j T h; simp [emailDotSearch] at h
  | succ k ih =>
      intro j T h
      unfold emailDotSearch at h
      by_cases hdot : d.get? (k + 1) = some '.'
      · rw [if_pos hdot] at h
        by_cases hT : 2 ≤ runLen isLetterChar (d.drop (k + 1 + 1))
        · rw [if_pos hT] at h
          simp only [Option.some.injEq, Prod.mk.injEq] at h
          obtain ⟨hj, hT2⟩ := h
          refine ⟨?_, ?_, ?_, ?_, ?_⟩
          · omega
          · omega
          · rw [← hj]; exact hdot
          · rw [← hT2, ← hj]
          · rw [← hT2]; exact hT
        · rw [if_neg hT] at h
          obtain ⟨a, b, c, e, f⟩ := ih j T h
          exact ⟨a, by omega, c, e, f⟩
      · rw [if_neg hdot] at h
        obtain ⟨a, b, c, e, f⟩ := ih j T h
        exact ⟨a, by omega, c, e, f⟩

lemma emailDotSearch_complete (d : List Char) :
    ∀ (j₀ j : Nat), 1 ≤ j → j ≤ j₀ → d.get? j = some '.' →
      2 ≤ runLen isLetterChar (d.drop (j + 1)) →
      (emailDotSearch d j₀).isSome := by
  intro j₀
  induction j₀ with
  | zero => intro j h1 hle _ _; omega
  | succ k ih =>
      intro j h1 hle hdot hT
      unfold emailDotSearch
      by_cases hdk : d.get? (k + 1) = some '.'
      · rw [if_pos hdk]
        by_cases hTk : 2 ≤ runLen isLetterChar (d.drop (k + 1 + 1))
        · rw [if_pos hTk]; simp
        · rw [if_neg hTk]
          rcases Nat.lt_or_ge j (k + 1) with hlt | hge
          · exact ih j h1 (by omega) hdot hT
          · exfalso
            have : j = k + 1 := by omega
            subst this
            exact hTk hT
      · rw [if_neg hdk]
        rcases Nat.lt_or_ge j (k + 1) with hlt | hge
        · exact ih j h1 (by omega) hdot hT
        · exfalso
          have : j = k + 1 := by omega
          subst this
          exact hdk hdot

/-- EXT for the email pattern: all of an email match's material lies
strictly inside the raw prefix, so the match survives any replacement of
the tail. -/
lemma email_ext (prev : Option Char) (w z : List Char) (ℓ : Nat)
    (h : emailMatchAt prev (w ++ '[' :: z) = some ℓ) (u : List Char) :
    emailMatchAt prev (w ++ u) ≠ none := by
  unfold emailMatchAt at h
  by_cases hL0 : runLen isLocalChar (w ++ '[' :: z) = 0
  · rw [if_pos hL0] at h
    exact absurd h (by simp)
  · rw [if_neg hL0] at h
    set L := runLen isLocalChar (w ++ '[' :: z) with hLdef
    have hLb : L ≤ w.length := runLen_append_bound _ _ _ _ (by decide)
    by_cases hat : (w ++ '[' :: z).get? L = some '@'
    · rw [if_pos hat] at h
      have hLlt : L < w.length := by
        rcases lt_or_eq_of_le hLb with h1 | h1
        · exact h1
        · exfalso
          rw [h1] at hat
          rw [List.get?_append_right (le_refl w.length)] at hat
          simp at hat
      have hatw : w.get? L = some '@' := by
        rw [get?_append_lt w ('[' :: z) L hLlt] at hat
        exact hat
      have hL1 : L + 1 ≤ w.length := hLlt
      have hdrop : (w ++ '[' :: z).drop (L + 1) = w.drop (L + 1) ++ '[' :: z :=
        List.drop_append_of_le_length hL1
      rw [hdrop] at h
      set w₂ := w.drop (L + 1) with hw2
      simp only [] at h
      cases hsea : emailDotSearch (w₂ ++ '[' :: z)
          (runLen isDomainChar (w₂ ++ '[' :: z) - 1) with
      | none => rw [hsea] at h; exact absurd h (by simp)
      | some jT =>
          obtain ⟨j, T⟩ := jT
          obtain ⟨hj1, hjle, hdot, hTdef, hT2⟩ :=
            emailDotSearch_sound (w₂ ++ '[' :: z) _ j T hsea
          have hD := runLen_append_bound isDomainChar w₂ z '[' (by decide)
          have hjD : j < runLen isDomainChar (w₂ ++ '[' :: z) := by omega
          have hjw : j < w₂.length := by omega
          have hdotw : w₂.get? j = some '.' := by
            rw [get?_append_lt w₂ ('[' :: z) j hjw] at hdot
            exact hdot
          have hj1w : j + 1 ≤ w₂.length := hjw
          have hdrop2 : (w₂ ++ '[' :: z).drop (j + 1) = w₂.drop (j + 1) ++ '[' :: z :=
            List.drop_append_of_le_length hj1w
          rw [hdrop2] at hTdef
          have hw3len : 2 ≤ (w₂.drop (j + 1)).length := by
            by_contra hlt
            push_neg at hlt
            interval_cases hw3 : (w₂.drop (j + 1)).length
            · obtain ⟨c, hc, hpc⟩ := runLen_sat isLetterChar
                (w₂.drop (j + 1) ++ '[' :: z) 0 (by omega)
              rw [List.get?_append_right (by omega)] at hc
              rw [hw3] at hc
              simp at hc
              rw [← hc] at hpc
              exact absurd hpc (by decide)
            · obtain ⟨c, hc, hpc⟩ := runLen_sat isLetterChar
                (w₂.drop (j + 1) ++ '[' :: z) 1 (by omega)
              rw [List.get?_append_right (by omega)] at hc
              rw [hw3] at hc
              simp at hc
              rw [← hc] at hpc
              exact absurd hpc (by decide)
          -- now rebuild the match on w ++ u
          unfold emailMatchAt
          have hLu : runLen isLocalChar (w ++ u) = L := by
            have : runLen isLocalChar (w ++ '[' :: z) < w.length := by omega
            exact runLen_agree_prefix isLocalChar w ('[' :: z) u this
          rw [hLu, if_neg hL0]
          have hatu : (w ++ u).get? L = some '@' := by
            rw [get?_append_lt w u L hLlt]
            exact hatw
          rw [if_pos hatu]
          have hdropu : (w ++ u).drop (L + 1) = w₂ ++ u :=
            List.drop_append_of_le_length hL1
          rw [hdropu]
          have hDu : j + 1 ≤ runLen isDomainChar (w₂ ++ u) := by
            apply runLen_ge
            intro i hi
            obtain ⟨e, he, hpe⟩ := runLen_sat isDomainChar (w₂ ++ '[' :: z) i
              (by omega)
            have hiw : i < w₂.length := by omega
            rw [get?_append_lt w₂ ('[' :: z) i hiw] at he
            exact ⟨e, by rw [get?_append_lt w₂ u i hiw]; exact he, hpe⟩
          have hdotu : (w₂ ++ u).get? j = some '.' := by
            rw [get?_append_lt w₂ u j hjw]
            exact hdotw
          have hdropu2 : (w₂ ++ u).drop (j + 1) = w₂.drop (j + 1) ++ u :=
            List.drop_append_of_le_length hj1w
          have hTu : 2 ≤ runLen isLetterChar ((w₂ ++ u).drop (j + 1)) := by
            rw [hdropu2]
            apply runLen_ge
            intro i hi
            obtain ⟨e, he, hpe⟩ := runLen_sat isLetterChar
              (w₂.drop (j + 1) ++ '[' :: z) i (by omega)
            have hiw : i < (w₂.drop (j + 1)).length := by omega
            rw [get?_append_lt _ ('[' :: z) i hiw] at he
            exact ⟨e, by rw [get?_append_lt _ u i hiw]; exact he, hpe⟩
          have hcomp := emailDotSearch_complete (w₂ ++ u)
            (runLen isDomainChar (w₂ ++ u) - 1) j hj1 (by omega) hdotu hTu
          exact emailTail_ne_none (w₂ ++ u) L hcomp
    · rw [if_neg hat] at h
      exact absurd h (by simp)


lemma head?_drop_eq (l : List Char) (n : Nat) : (l.drop n).head? = l.get? n := by
  simp [List.head?_drop]

lemma getLast?_drop_of_ne_nil (l : List Char) (n : Nat) (h : l.drop n ≠ []) :
    (l.drop n).getLast? = l.getLast? := by
  have hs : (l.drop n).getLast?.isSome := by
    simp [List.getLast?_isSome, h]
  conv_rhs => rw [← List.take_append_drop n l]
  rw [List.getLast?_append]
  cases hg : (l.drop n).getLast? with
  | none => rw [hg] at hs; simp at hs
  | some c => simp

lemma isWordChar_of_digit (c : Char) (h : isDigitChar c = true) :
    isWordChar c = true := by
  simp only [isDigitChar] at h
  simp [isWordChar, Char.isAlphanum, h]

lemma notWordHead_head (s : List Char) (c : Char) (hc : s.head? = some c) :
    notWordHead s = !isWordChar c := by
  unfold notWordHead
  rw [hc]

lemma ipRun_inv (s : List Char) (r : Nat) (t : List Char)
    (h : ipRun s = some (r, t)) :
    r = runLen isDigitChar s ∧ 1 ≤ r ∧ r ≤ 3 ∧ t = s.drop r := by
  unfold ipRun at h
  simp only [] at h
  split at h
  · rename_i hc
    simp only [Bool.and_eq_true, decide_eq_true_eq] at hc
    simp only [Option.some.injEq, Prod.mk.injEq] at h
    exact ⟨h.1.symm, h.1 ▸ hc.1, h.1 ▸ hc.2, h.1 ▸ h.2.symm⟩
  · exact absurd h (by simp)

lemma ipRun_intro (s : List Char) (r : Nat)
    (h1 : runLen isDigitChar s = r) (h2 : 1 ≤ r) (h3 : r ≤ 3) :
    ipRun s = some (r, s.drop r) := by
  unfold ipRun
  simp only []
  rw [h1]
  rw [if_pos (by simp [h2, h3])]

lemma ipMatchAt_inv (prev : Option Char) (s : List Char) (ℓ : Nat)
    (h : ipMatchAt prev s = some ℓ) :
    prevNonWord prev = true ∧
    ∃ r1 r2 r3 r4,
      ℓ = r1 + 1 + r2 + 1 + r3 + 1 + r4 ∧
      runLen isDigitChar s = r1 ∧ 1 ≤ r1 ∧ r1 ≤ 3 ∧
      (s.drop r1).head? = some '.' ∧
      runLen isDigitChar (s.drop (r1 + 1)) = r2 ∧ 1 ≤ r2 ∧ r2 ≤ 3 ∧
      (s.drop (r1 + 1 + r2)).head? = some '.' ∧
      runLen isDigitChar (s.drop (r1 + 1 + r2 + 1)) = r3 ∧ 1 ≤ r3 ∧ r3 ≤ 3 ∧
      (s.drop (r1 + 1 + r2 + 1 + r3)).head? = some '.' ∧
      runLen isDigitChar (s.drop (r1 + 1 + r2 + 1 + r3 + 1)) = r4 ∧
      1 ≤ r4 ∧ r4 ≤ 3 ∧
      notWordHead (s.drop (r1 + 1 + r2 + 1 + r3 + 1 + r4)) = true := by
  unfold ipMatchAt at h
  split at h
  · rename_i hprev
    split at h
    · rename_i x1 r1 s1 heq1
      split at h
      · rename_i hdot1
        split at h
        · rename_i x2 r2 s3 heq2
          split at h
          · rename_i hdot2
            split at h
            · rename_i x3 r3 s5 heq3
              split at h
              · rename_i hdot3
                split at h
                · rename_i x4 r4 s7 heq4
                  split at h
                  · rename_i hnw
                    obtain ⟨hr1, h11, h13, hs1⟩ := ipRun_inv _ _ _ heq1
                    subst hs1
                    rw [List.tail_drop] at heq2
                    obtain ⟨hr2, h21, h23, hs3⟩ := ipRun_inv _ _ _ heq2
                    subst hs3
                    rw [List.drop_drop] at hdot2
                    rw [List.drop_drop, List.tail_drop] at heq3
                    obtain ⟨hr3, h31, h33, hs5⟩ := ipRun_inv _ _ _ heq3
                    subst hs5
                    rw [List.drop_drop] at hdot3
                    rw [List.drop_drop, List.tail_drop] at heq4
                    obtain ⟨hr4, h41, h43, hs7⟩ := ipRun_inv _ _ _ heq4
                    subst hs7
                    rw [List.drop_drop] at hnw
                    simp only [Option.some.injEq] at h
                    exact ⟨hprev, r1, r2, r3, r4, h.symm, hr1.symm, h11, h13,
                      hdot1, hr2.symm, h21, h23, hdot2, hr3.symm, h31, h33,
                      hdot3, hr4.symm, h41, h43, hnw⟩
                  · exact absurd h (by simp)
                · exact absurd h (by simp)
              · exact absurd h (by simp)
            · exact absurd h (by simp)
          · exact absurd h (by simp)
        · exact absurd h (by simp)
      · exact absurd h (by simp)
    · exact absurd h (by simp)
  · exact absurd h (by simp)

lemma ipMatchAt_intro (prev : Option Char) (s : List Char) (r1 r2 r3 r4 : Nat)
    (hprev : prevNonWord prev = true)
    (h1 : runLen isDigitChar s = r1) (h11 : 1 ≤ r1) (h13 : r1 ≤ 3)
    (hd1 : (s.drop r1).head? = some '.')
    (h2 : runLen isDigitChar (s.drop (r1 + 1)) = r2) (h21 : 1 ≤ r2) (h23 : r2 ≤ 3)
    (hd2 : (s.drop (r1 + 1 + r2)).head? = some '.')
    (h3 : runLen isDigitChar (s.drop (r1 + 1 + r2 + 1)) = r3) (h31 : 1 ≤ r3)
    (h33 : r3 ≤ 3)
    (hd3 : (s.drop (r1 + 1 + r2 + 1 + r3)).head? = some '.')
    (h4 : runLen isDigitChar (s.drop (r1 + 1 + r2 + 1 + r3 + 1)) = r4)
    (h41 : 1 ≤ r4) (h43 : r4 ≤ 3)
    (hnw : notWordHead (s.drop (r1 + 1 + r2 + 1 + r3 + 1 + r4)) = true) :
    ipMatchAt prev s = some (r1 + 1 + r2 + 1 + r3 + 1 + r4) := by
  unfold ipMatchAt
  rw [if_pos hprev]
  rw [ipRun_intro s r1 h1 h11 h13]
  simp only []
  rw [if_pos hd1, List.tail_drop]
  rw [ipRun_intro _ r2 h2 h21 h23]
  simp only []
  rw [List.drop_drop]
  rw [if_pos hd2, List.tail_drop]
  rw [ipRun_intro _ r3 h3 h31 h33]
  simp only []
  rw [List.drop_drop]
  rw [if_pos hd3, List.tail_drop]
  rw [ipRun_intro _ r4 h4 h41 h43]
  simp only []
  rw [List.drop_drop]
  rw [if_pos hnw]

lemma ip_group_ext (w z u : List Char) (a r : Nat)
    (ha : a ≤ w.length)
    (hr : runLen isDigitChar ((w ++ '[' :: z).drop a) = r)
    (hd : ((w ++ '[' :: z).drop (a + r)).head? = some '.') :
    a + r + 1 ≤ w.length ∧
    runLen isDigitChar ((w ++ u).drop a) = r ∧
    ((w ++ u).drop (a + r)).head? = some '.' := by
  have hsa : (w ++ '[' :: z).drop a = w.drop a ++ '[' :: z :=
    List.drop_append_of_le_length ha
  have hsu : (w ++ u).drop a = w.drop a ++ u :=
    List.drop_append_of_le_length ha
  rw [hsa] at hr
  have hbound : r ≤ (w.drop a).length := by
    rw [← hr]
    exact runLen_append_bound _ _ _ _ (by decide)
  rw [List.length_drop] at hbound
  have hget : (w ++ '[' :: z).get? (a + r) = some '.' := by
    rw [← head?_drop_eq]
    exact hd
  have hlt : a + r < w.length := by
    rcases lt_or_eq_of_le (show a + r ≤ w.length by omega) with h1 | h1
    · exact h1
    · exfalso
      rw [h1] at hget
      rw [List.get?_append_right (le_refl w.length)] at hget
      simp at hget
  have hgw : w.get? (a + r) = some '.' := by
    rw [get?_append_lt w ('[' :: z) (a + r) hlt] at hget
    exact hget
  refine ⟨by omega, ?_, ?_⟩
  · rw [hsu, ← hr]
    exact runLen_agree_prefix isDigitChar (w.drop a) ('[' :: z) u
      (by rw [hr, List.length_drop]; omega)
  · rw [head?_drop_eq, get?_append_lt w u (a + r) hlt]
    exact hgw

/-- EXT for the ip pattern: an ip match on a token-truncated tail either
survives on any other tail (all material strictly inside the raw prefix)
or forces the raw prefix to end in a word character. -/
lemma ip_ext (prev : Option Char) (w z : List Char) (ℓ : Nat)
    (h : ipMatchAt prev (w ++ '[' :: z) = some ℓ) (u : List Char) :
    ipMatchAt prev (w ++ u) ≠ none ∨
      ∃ cw, w.getLast? = some cw ∧ isWordChar cw = true := by
  obtain ⟨hprev, r1, r2, r3, r4, hl, hr1, h11, h13, hd1, hr2, h21, h23, hd2,
    hr3, h31, h33, hd3, hr4, h41, h43, hnw⟩ := ipMatchAt_inv prev _ ℓ h
  have hr1' : runLen isDigitChar ((w ++ '[' :: z).drop 0) = r1 := by
    simpa using hr1
  have hd1' : ((w ++ '[' :: z).drop (0 + r1)).head? = some '.' := by
    simpa using hd1
  obtain ⟨hb1, hru1, hdu1⟩ := ip_group_ext w z u 0 r1 (by omega) hr1' hd1'
  rw [List.drop_zero] at hru1
  rw [Nat.zero_add] at hdu1
  have ha2 : r1 + 1 ≤ w.length := by omega
  obtain ⟨hb2, hru2, hdu2⟩ := ip_group_ext w z u (r1 + 1) r2 ha2 hr2 hd2
  obtain ⟨hb3, hru3, hdu3⟩ := ip_group_ext w z u (r1 + 1 + r2 + 1) r3 hb2 hr3 hd3
  have ha4 : r1 + 1 + r2 + 1 + r3 + 1 ≤ w.length := hb3
  have hsa4 : (w ++ '[' :: z).drop (r1 + 1 + r2 + 1 + r3 + 1)
      = w.drop (r1 + 1 + r2 + 1 + r3 + 1) ++ '[' :: z :=
    List.drop_append_of_le_length ha4
  rw [hsa4] at hr4
  have hb4 : r4 ≤ (w.drop (r1 + 1 + r2 + 1 + r3 + 1)).length := by
    rw [← hr4]
    exact runLen_append_bound _ _ _ _ (by decide)
  rw [List.length_drop] at hb4
  rcases Nat.lt_or_ge (r1 + 1 + r2 + 1 + r3 + 1 + r4) w.length with hlt | hge
  · left
    have hru4 : runLen isDigitChar ((w ++ u).drop (r1 + 1 + r2 + 1 + r3 + 1)) = r4 := by
      rw [List.drop_append_of_le_length ha4, ← hr4]
      exact runLen_agree_prefix isDigitChar _ ('[' :: z) u
        (by rw [hr4, List.length_drop]; omega)
    cases hE : w.get? (r1 + 1 + r2 + 1 + r3 + 1 + r4) with
    | none =>
        exfalso
        rw [List.get?_eq_none] at hE
        omega
    | some e =>
        have hhead : ((w ++ '[' :: z).drop (r1 + 1 + r2 + 1 + r3 + 1 + r4)).head?
            = some e := by
          rw [head?_drop_eq, get?_append_lt _ _ _ hlt]
          exact hE
        have hnwE : (!isWordChar e) = true := by
          rw [notWordHead_head _ e hhead] at hnw
          exact hnw
        have hheadU : ((w ++ u).drop (r1 + 1 + r2 + 1 + r3 + 1 + r4)).head?
            = some e := by
          rw [head?_drop_eq, get?_append_lt _ _ _ hlt]
          exact hE
        have hnwU : notWordHead ((w ++ u).drop (r1 + 1 + r2 + 1 + r3 + 1 + r4))
            = true := by
          rw [notWordHead_head _ e hheadU]
          exact hnwE
        have hmatch := ipMatchAt_intro prev (w ++ u) r1 r2 r3 r4 hprev
          hru1 h11 h13 hdu1 hru2 h21 h23 hdu2 hru3 h31 h33 hdu3
          hru4 h41 h43 hnwU
        rw [hmatch]
        simp
  · right
    have hw4len : (w.drop (r1 + 1 + r2 + 1 + r3 + 1)).length = r4 := by
      rw [List.length_drop]
      omega
    have hne : w.drop (r1 + 1 + r2 + 1 + r3 + 1) ≠ [] := by
      intro he
      rw [he] at hw4len
      simp at hw4len
      omega
    have hallw : runLen isDigitChar (w.drop (r1 + 1 + r2 + 1 + r3 + 1))
        = (w.drop (r1 + 1 + r2 + 1 + r3 + 1)).length := by
      apply Nat.le_antisymm (runLen_le _ _)
      rw [hw4len]
      apply runLen_ge
      intro i hi
      obtain ⟨c, hc, hpc⟩ := runLen_sat isDigitChar
        (w.drop (r1 + 1 + r2 + 1 + r3 + 1) ++ '[' :: z) i (by rw [hr4]; omega)
      rw [get?_append_lt _ _ i (by omega)] at hc
      exact ⟨c, hc, hpc⟩
    have hdig := (runLen_eq_length isDigitChar _).mp hallw
    have hsome : (w.drop (r1 + 1 + r2 + 1 + r3 + 1)).getLast?.isSome := by
      simp [List.getLast?_isSome, hne]
    obtain ⟨cw, hcw⟩ := Option.isSome_iff_exists.mp hsome
    refine ⟨cw, ?_, ?_⟩
    · rw [← getLast?_drop_of_ne_nil w (r1 + 1 + r2 + 1 + r3 + 1) hne]
      exact hcw
    · exact isWordChar_of_digit cw (hdig cw (List.mem_of_mem_getLast? hcw))


lemma isWordChar_of_upper (c : Char) (h : isUpperChar c = true) :
    isWordChar c = true := by
  simp only [isUpperChar, Bool.and_eq_true, decide_eq_true_eq] at h
  have hu : c.isUpper = true := by
    simp [Char.isUpper]
    exact ⟨h.1, h.2⟩
  simp [isWordChar, Char.isAlphanum, Char.isAlpha, hu]

lemma isWordChar_of_alnumcap (c : Char) (h : isAlnumCapChar c = true) :
    isWordChar c = true := by
  simp only [isAlnumCapChar, Bool.or_eq_true] at h
  rcases h with h | h
  · exact isWordChar_of_upper c h
  · exact isWordChar_of_digit c h

lemma ibanMatchAt_inv (prev : Option Char) (s : List Char) (ℓ : Nat)
    (h : ibanMatchAt prev s = some ℓ) :
    prevNonWord prev = true ∧
    ∃ c1 c2 c3 c4 rest R,
      s = c1 :: c2 :: c3 :: c4 :: rest ∧
      isUpperChar c1 = true ∧ isUpperChar c2 = true ∧
      isDigitChar c3 = true ∧ isDigitChar c4 = true ∧
      runLen isAlnumCapChar rest = R ∧ 10 ≤ R ∧ R ≤ 30 ∧
      notWordHead (rest.drop R) = true ∧ ℓ = 4 + R := by
  unfold ibanMatchAt at h
  split at h
  · exact absurd h (by simp)
  · rename_i hprev
    have hprev' : prevNonWord prev = true := by
      simpa using hprev
    split at h
    · rename_i x c1 c2 c3 c4 rest
      split at h
      · rename_i hhdr
        simp only [Bool.and_eq_true] at hhdr
        simp only [] at h
        split at h
        · rename_i hRb
          simp only [Bool.and_eq_true, decide_eq_true_eq] at hRb
          split at h
          · rename_i hnw
            simp only [Option.some.injEq] at h
            exact ⟨hprev', c1, c2, c3, c4, rest, runLen isAlnumCapChar rest,
              rfl, hhdr.1.1.1, hhdr.1.1.2, hhdr.1.2, hhdr.2, rfl,
              hRb.1, hRb.2, hnw, h.symm⟩
          · exact absurd h (by simp)
        · exact absurd h (by simp)
      · exact absurd h (by simp)
    · exact absurd h (by simp)

lemma ibanMatchAt_intro (prev : Option Char) (c1 c2 c3 c4 : Char)
    (rest : List Char) (R : Nat) (hprev : prevNonWord prev = true)
    (h1 : isUpperChar c1 = true) (h2 : isUpperChar c2 = true)
    (h3 : isDigitChar c3 = true) (h4 : isDigitChar c4 = true)
    (hR : runLen isAlnumCapChar rest = R) (hR10 : 10 ≤ R) (hR30 : R ≤ 30)
    (hnw : notWordHead (rest.drop R) = true) :
    ibanMatchAt prev (c1 :: c2 :: c3 :: c4 :: rest) = some (4 + R) := by
  unfold ibanMatchAt
  rw [if_neg (by simp [hprev])]
  show (if (isUpperChar c1 && isUpperChar c2 && isDigitChar c3 && isDigitChar c4) = true then
      let R := runLen isAlnumCapChar rest
      if (decide (10 ≤ R) && decide (R ≤ 30)) = true then
        if notWordHead (rest.drop R) = true then some (4 + R) else none
      else none
    else none) = some (4 + R)
  rw [if_pos (by simp [h1, h2, h3, h4])]
  simp only []
  rw [hR]
  rw [if_pos (by simp [hR10, hR30])]
  rw [if_pos hnw]

/-- EXT for the iban pattern: an iban match on a token-truncated tail
either survives on any other tail or forces the raw prefix to end in a
word character. -/
lemma iban_ext (prev : Option Char) (w z : List Char) (ℓ : Nat)
    (h : ibanMatchAt prev (w ++ '[' :: z) = some ℓ) (u : List Char) :
    ibanMatchAt prev (w ++ u) ≠ none ∨
      ∃ cw, w.getLast? = some cw ∧ isWordChar cw = true := by
  obtain ⟨hprev, c1, c2, c3, c4, rest, R, heq, h1, h2, h3, h4, hR, hR10, hR30,
    hnw, hl⟩ := ibanMatchAt_inv prev _ ℓ h
  match w with
  | [] =>
      exfalso
      simp only [List.nil_append, List.cons.injEq] at heq
      rw [← heq.1] at h1
      exact absurd h1 (by decide)
  | [e1] =>
      exfalso
      simp only [List.cons_append, List.nil_append, List.cons.injEq] at heq
      rw [← heq.2.1] at h2
      exact absurd h2 (by decide)
  | [e1, e2] =>
      exfalso
      simp only [List.cons_append, List.nil_append, List.cons.injEq] at heq
      rw [← heq.2.2.1] at h3
      exact absurd h3 (by decide)
  | [e1, e2, e3] =>
      exfalso
      simp only [List.cons_append, List.nil_append, List.cons.injEq] at heq
      rw [← heq.2.2.2.1] at h4
      exact absurd h4 (by decide)
  | e1 :: e2 :: e3 :: e4 :: w' =>
      simp only [List.cons_append, List.cons.injEq] at heq
      obtain ⟨he1, he2, he3, he4, hrest⟩ := heq
      subst he1
      subst he2
      subst he3
      subst he4
      rw [← hrest] at hR hnw
      have hbound : R ≤ w'.length := by
        rw [← hR]
        exact runLen_append_bound _ _ _ _ (by decide)
      rcases Nat.lt_or_ge R w'.length with hlt | hge
      · left
        have hRu : runLen isAlnumCapChar (w' ++ u) = R := by
          rw [← hR]
          exact runLen_agree_prefix _ w' ('[' :: z) u (by rw [hR]; exact hlt)
        cases hE : w'.get? R with
        | none =>
            exfalso
            rw [List.get?_eq_none] at hE
            omega
        | some e =>
            have hhead : ((w' ++ '[' :: z).drop R).head? = some e := by
              rw [head?_drop_eq, get?_append_lt _ _ _ hlt]
              exact hE
            have hnwE : (!isWordChar e) = true := by
              rw [notWordHead_head _ e hhead] at hnw
              exact hnw
            have hheadU : ((w' ++ u).drop R).head? = some e := by
              rw [head?_drop_eq, get?_append_lt _ _ _ hlt]
              exact hE
            have hnwU : notWordHead ((w' ++ u).drop R) = true := by
              rw [notWordHead_head _ e hheadU]
              exact hnwE
            have hmatch := ibanMatchAt_intro prev e1 e2 e3 e4 (w' ++ u) R
              hprev h1 h2 h3 h4 hRu hR10 hR30 hnwU
            simp only [List.cons_append]
            rw [hmatch]
            simp
      · right
        have hRlen : w'.length = R := by omega
        have hne : w' ≠ [] := by
          intro he
          rw [he] at hRlen
          simp at hRlen
          omega
        have hallw : runLen isAlnumCapChar w' = w'.length := by
          apply Nat.le_antisymm (runLen_le _ _)
          apply runLen_ge
          intro i hi
          obtain ⟨c, hc, hpc⟩ := runLen_sat isAlnumCapChar (w' ++ '[' :: z) i
            (by rw [hR]; omega)
          rw [get?_append_lt _ _ i (by omega)] at hc
          exact ⟨c, hc, hpc⟩
        have hdig := (runLen_eq_length isAlnumCapChar _).mp hallw
        have hsome : w'.getLast?.isSome := by
          simp [List.getLast?_isSome, hne]
        obtain ⟨cw, hcw⟩ := Option.isSome_iff_exists.mp hsome
        refine ⟨cw, ?_, ?_⟩
        · have hsplit : (e1 :: e2 :: e3 :: e4 :: w') = [e1, e2, e3, e4] ++ w' := rfl
          rw [hsplit, List.getLast?_append, hcw]
          simp
        · exact isWordChar_of_alnumcap cw (hdig cw (List.mem_of_mem_getLast? hcw))


lemma not_digit_of_not_word (c : Char) (h : isWordChar c = false) :
    isDigitChar c = false := by
  cases hd : isDigitChar c
  · rfl
  · rw [isWordChar_of_digit c hd] at h
    exact absurd h (by simp)

lemma not_upper_of_not_word (c : Char) (h : isWordChar c = false) :
    isUpperChar c = false := by
  cases hd : isUpperChar c
  · rfl
  · rw [isWordChar_of_upper c hd] at h
    exact absurd h (by simp)

lemma lastPrev_of_getLast (prev : Option Char) (w : List Char) (c : Char)
    (h : w.getLast? = some c) : lastPrev prev w = some c := by
  unfold lastPrev
  rw [h]

lemma phone_pos (p : Option Char) (s : List Char) (ℓ : Nat)
    (h : phoneMatchAt p s = some ℓ) : 1 ≤ ℓ := by
  unfold phoneMatchAt at h
  simp only [] at h
  split at h
  · rename_i x c rest heq
    split at h
    · split at h
      · rename_i j heq2
        simp only [Option.some.injEq] at h
        omega
      · exact absurd h (by simp)
    · exact absurd h (by simp)
  · exact absurd h (by simp)

lemma ip_pos (p : Option Char) (s : List Char) (ℓ : Nat)
    (h : ipMatchAt p s = some ℓ) : 1 ≤ ℓ := by
  obtain ⟨-, r1, r2, r3, r4, hl, -, -, -, -, -, -, -, -, -, -, -, -, -, -, -, -⟩ :=
    ipMatchAt_inv p s ℓ h
  omega

lemma iban_pos (p : Option Char) (s : List Char) (ℓ : Nat)
    (h : ibanMatchAt p s = some ℓ) : 1 ≤ ℓ := by
  obtain ⟨-, c1, c2, c3, c4, rest, R, -, -, -, -, -, -, -, -, -, hl⟩ :=
    ibanMatchAt_inv p s ℓ h
  omega

lemma ip_prev (p : Option Char) (s : List Char) (ℓ : Nat)
    (h : ipMatchAt p s = some ℓ) : prevNonWord p = true := by
  by_contra hp
  unfold ipMatchAt at h
  rw [if_neg hp] at h
  exact absurd h (by simp)

lemma iban_prev (p : Option Char) (s : List Char) (ℓ : Nat)
    (h : ibanMatchAt p s = some ℓ) : prevNonWord p = true := by
  cases hq : prevNonWord p
  · unfold ibanMatchAt at h
    rw [hq] at h
    simp at h
  · rfl

lemma ip_trail (p : Option Char) (s : List Char) (ℓ : Nat)
    (h : ipMatchAt p s = some ℓ) : notWordHead (s.drop ℓ) = true := by
  obtain ⟨-, r1, r2, r3, r4, hl, -, -, -, -, -, -, -, -, -, -, -, -, -, -, -, hnw⟩ :=
    ipMatchAt_inv p s ℓ h
  rw [hl]
  exact hnw

lemma iban_trail (p : Option Char) (s : List Char) (ℓ : Nat)
    (h : ibanMatchAt p s = some ℓ) : notWordHead (s.drop ℓ) = true := by
  obtain ⟨-, c1, c2, c3, c4, rest, R, heq, -, -, -, -, -, -, -, hnw, hl⟩ :=
    ibanMatchAt_inv p s ℓ h
  subst heq
  rw [hl]
  have hdrop : (c1 :: c2 :: c3 :: c4 :: rest).drop (4 + R) = rest.drop R := by
    rw [show 4 + R = R + 4 by omega]
    rfl
  rw [hdrop]
  exact hnw

lemma ipMatchAt_none_head (p : Option Char) (c : Char) (r : List Char)
    (hc : isDigitChar c = false) : ipMatchAt p (c :: r) = none := by
  have hrun : ipRun (c :: r) = none := by
    unfold ipRun
    simp only []
    rw [runLen_cons, hc]
    rfl
  unfold ipMatchAt
  cases hp : prevNonWord p
  · rfl
  · rw [hrun]
    rfl

lemma ibanMatchAt_none_head (p : Option Char) (c : Char) (r : List Char)
    (hc : isUpperChar c = false) : ibanMatchAt p (c :: r) = none := by
  unfold ibanMatchAt
  cases hp : prevNonWord p
  · rfl
  · match r with
    | [] => rfl
    | [e1] => rfl
    | [e1, e2] => rfl
    | e1 :: e2 :: e3 :: rest =>
        show (if (isUpperChar c && isUpperChar e1 && isDigitChar e2 && isDigitChar e3) = true
            then
              let R := runLen isAlnumCapChar rest
              if (decide (10 ≤ R) && decide (R ≤ 30)) = true then
                if notWordHead (rest.drop R) = true then some (4 + R) else none
              else none
            else none) = none
        rw [if_neg (by simp [hc])]

/-- hcore builder for a pattern whose EXT lemma is unconditional (all its
match material lies in the raw prefix). -/
lemma hcore_of_ext {A B : Matcher}
    (hext : ∀ prev w z ℓ, A prev (w ++ '[' :: z) = some ℓ → ∀ u,
      A prev (w ++ u) ≠ none) :
    ∀ prev w c rest z ℓ len, A prev (w ++ '[' :: z) = some ℓ →
      B (lastPrev prev w) (c :: rest) = some len →
      ¬ A prev (w ++ c :: rest) = none := by
  intro prev w c rest z ℓ len hA _
  exact hext prev w z ℓ hA (c :: rest)

/-- hcore builder for a boundary pattern (disjunctive EXT): the escape case
puts a word character right before `B`'s match, contradicting `B`'s own
leading word-boundary requirement. -/
lemma hcore_of_ext_boundary {A B : Matcher}
    (hext : ∀ prev w z ℓ, A prev (w ++ '[' :: z) = some ℓ → ∀ u,
      A prev (w ++ u) ≠ none ∨ ∃ cw, w.getLast? = some cw ∧ isWordChar cw = true)
    (hBprev : ∀ p s ℓ, B p s = some ℓ → prevNonWord p = true) :
    ∀ prev w c rest z ℓ len, A prev (w ++ '[' :: z) = some ℓ →
      B (lastPrev prev w) (c :: rest) = some len →
      ¬ A prev (w ++ c :: rest) = none := by
  intro prev w c rest z ℓ len hA hB
  rcases hext prev w z ℓ hA (c :: rest) with hok | ⟨cw, hlast, hword⟩
  · exact hok
  · exfalso
    rw [lastPrev_of_getLast prev w cw hlast] at hB
    have hpw := hBprev _ _ _ hB
    simp only [prevNonWord, hword] at hpw
    exact absurd hpw (by simp)

lemma email_htok (prev : Option Char) (rest : List Char)
    (h : NoMatch emailMatchAt (some ']') rest) :
    NoMatch emailMatchAt prev (REPL ++ rest) :=
  ⟨rfl, rfl, rfl, rfl, rfl, rfl, rfl, rfl, rfl, rfl, h⟩

lemma phone_htok (prev : Option Char) (rest : List Char)
    (h : NoMatch phoneMatchAt (some ']') rest) :
    NoMatch phoneMatchAt prev (REPL ++ rest) :=
  ⟨rfl, rfl, rfl, rfl, rfl, rfl, rfl, rfl, rfl, rfl, h⟩

lemma ip_htok (prev : Option Char) (rest : List Char)
    (h : NoMatch ipMatchAt (some ']') rest) :
    NoMatch ipMatchAt prev (REPL ++ rest) :=
  ⟨ipMatchAt_none_head prev '[' _ (by decide), rfl, rfl, rfl, rfl, rfl, rfl,
    rfl, rfl, rfl, h⟩

lemma iban_htok (prev : Option Char) (rest : List Char)
    (h : NoMatch ibanMatchAt (some ']') rest) :
    NoMatch ibanMatchAt prev (REPL ++ rest) :=
  ⟨ibanMatchAt_none_head prev '[' _ (by decide), rfl, rfl, rfl, rfl, rfl, rfl,
    rfl, rfl, rfl, h⟩


/-- Swapping the left context to the token's final `]` preserves a no-match
certificate, given head-failure facts for the matcher `A`. -/
lemma noMatch_swap_to_tok {A B : Matcher}
    (hAfail : ∀ (p : Option Char) (c : Char) (r : List Char),
      isWordChar c = false → A p (c :: r) = none)
    (hAtok : ∀ (p : Option Char) (r : List Char), A p ('[' :: r) = none)
    (p₂ : Option Char) (s₂ out₂ : List Char)
    (hsub : Subbed B REPL p₂ s₂ out₂)
    (htr : notWordHead s₂ = true)
    (hNM : NoMatch A p₂ out₂) :
    NoMatch A (some ']') out₂ := by
  cases hsub with
  | nil => trivial
  | raw p c rest out hfail htail =>
      have hcw : isWordChar c = false := by
        rw [notWordHead_head (c :: rest) c rfl] at htr
        simpa using htr
      exact ⟨hAfail _ c out hcw, hNM.2⟩
  | tok p c rest out len hmatch htail =>
      exact ⟨hAtok _ _, hNM.2⟩

lemma hafter_of_prevIrrel {A B : Matcher}
    (hirrel : ∀ (p q : Option Char) (s : List Char), A p s = A q s) :
    ∀ prev₀ c₀ rest₀ len out₂, B prev₀ (c₀ :: rest₀) = some len →
      Subbed B REPL ((c₀ :: rest₀).get? (len - 1)) (rest₀.drop (len - 1)) out₂ →
      NoMatch A ((c₀ :: rest₀).get? (len - 1)) out₂ →
      NoMatch A (some ']') out₂ := by
  intro p0 c0 r0 len out₂ _ _ hNM
  cases out₂ with
  | nil => trivial
  | cons e out' =>
      exact ⟨(hirrel ((c0 :: r0).get? (len - 1)) (some ']') (e :: out')) ▸ hNM.1,
        hNM.2⟩

lemma hafter_boundary {A B : Matcher}
    (hAfail : ∀ (p : Option Char) (c : Char) (r : List Char),
      isWordChar c = false → A p (c :: r) = none)
    (hAtok : ∀ (p : Option Char) (r : List Char), A p ('[' :: r) = none)
    (hBpos : ∀ p s ℓ, B p s = some ℓ → 1 ≤ ℓ)
    (hBtrail : ∀ p s ℓ, B p s = some ℓ → notWordHead (s.drop ℓ) = true) :
    ∀ prev₀ c₀ rest₀ len out₂, B prev₀ (c₀ :: rest₀) = some len →
      Subbed B REPL ((c₀ :: rest₀).get? (len - 1)) (rest₀.drop (len - 1)) out₂ →
      NoMatch A ((c₀ :: rest₀).get? (len - 1)) out₂ →
      NoMatch A (some ']') out₂ := by
  intro p0 c0 r0 len out₂ hB hsub hNM
  have hpos := hBpos _ _ _ hB
  have htr := hBtrail _ _ _ hB
  rw [drop_cons_eq c0 r0 len hpos] at htr
  exact noMatch_swap_to_tok hAfail hAtok _ _ _ hsub htr hNM

lemma phoneMid_of_sep (c : Char) (h : isSepChar c = true) :
    isPhoneMidChar c = true := by
  simp only [isSepChar, Bool.or_eq_true, decide_eq_true_eq] at h
  rcases h with h | h <;> subst h <;> decide

lemma phoneMid_of_digit (c : Char) (h : isDigitChar c = true) :
    isPhoneMidChar c = true := by
  simp [isPhoneMidChar, h]

lemma cardLoop_facts :
    ∀ (n : Nat) (rem : List Char), rem.length ≤ n → ∀ (cum len : Nat),
      cardLoop rem cum = some len →
      1 ≤ len ∧ 13 ≤ cum + len ∧
      (∀ i, i < len → ∃ c, rem.get? i = some c ∧ isPhoneMidChar c = true) ∧
      (∃ c, rem.get? (len - 1) = some c ∧ isDigitChar c = true) := by
  intro n
  induction n with
  | zero =>
      intro rem hlen cum len h
      have he : rem = [] := List.eq_nil_of_length_eq_zero (Nat.le_zero.mp hlen)
      subst he
      unfold cardLoop at h
      simp only [] at h
      rw [runLen_nil] at h
      rw [dif_pos rfl] at h
      exact absurd h (by simp)
  | succ k ih =>
      intro rem hlen cum len h
      unfold cardLoop at h
      simp only [] at h
      split at h
      · exact absurd h (by simp)
      · rename_i hr0
        have hr1 : 1 ≤ runLen isDigitChar rem := Nat.one_le_iff_ne_zero.mpr hr0
        have hrle : runLen isDigitChar rem ≤ rem.length := runLen_le _ _
        split at h
        · rename_i h13
          split at h
          · exact absurd h (by simp)
          · rename_i h19
            split at h
            · rename_i hnw
              simp only [Option.some.injEq] at h
              subst h
              refine ⟨hr1, h13, ?_, ?_⟩
              · intro i hi
                obtain ⟨c, hc, hdc⟩ := runLen_sat isDigitChar rem i hi
                exact ⟨c, hc, phoneMid_of_digit c hdc⟩
              · obtain ⟨c, hc, hdc⟩ := runLen_sat isDigitChar rem
                  (runLen isDigitChar rem - 1) (by omega)
                exact ⟨c, hc, hdc⟩
            · exact absurd h (by simp)
        · rename_i h13f
          split at h
          · rename_i hgd
            simp only [Bool.and_eq_true, decide_eq_true_eq] at hgd
            obtain ⟨hg1, hgdig⟩ := hgd
            split at h
            · rename_i x len2 heq
              simp only [Option.some.injEq] at h
              subst h
              have hrec := ih (rem.drop (runLen isDigitChar rem +
                  runLen isSepChar (rem.drop (runLen isDigitChar rem)))) (by
                rw [List.length_drop]
                omega) (cum + runLen isDigitChar rem) len2 heq
              obtain ⟨hp1, hp13, hpmid, hplast⟩ := hrec
              refine ⟨by omega, by omega, ?_, ?_⟩
              · intro i hi
                rcases Nat.lt_or_ge i (runLen isDigitChar rem) with hi1 | hi1
                · obtain ⟨c, hc, hdc⟩ := runLen_sat isDigitChar rem i hi1
                  exact ⟨c, hc, phoneMid_of_digit c hdc⟩
                · rcases Nat.lt_or_ge i (runLen isDigitChar rem +
                      runLen isSepChar (rem.drop (runLen isDigitChar rem))) with hi2 | hi2
                  · obtain ⟨c, hc, hsc⟩ := runLen_sat isSepChar
                      (rem.drop (runLen isDigitChar rem)) (i - runLen isDigitChar rem)
                      (by omega)
                    rw [List.get?_drop] at hc
                    rw [show runLen isDigitChar rem + (i - runLen isDigitChar rem) = i
                      from by omega] at hc
                    exact ⟨c, hc, phoneMid_of_sep c hsc⟩
                  · obtain ⟨c, hc, hmc⟩ := hpmid (i - (runLen isDigitChar rem +
                      runLen isSepChar (rem.drop (runLen isDigitChar rem)))) (by omega)
                    rw [List.get?_drop] at hc
                    rw [show runLen isDigitChar rem +
                        runLen isSepChar (rem.drop (runLen isDigitChar rem)) +
                        (i - (runLen isDigitChar rem +
                          runLen isSepChar (rem.drop (runLen isDigitChar rem)))) = i
                      from by omega] at hc
                    exact ⟨c, hc, hmc⟩
              · obtain ⟨c, hc, hdc⟩ := hplast
                rw [List.get?_drop] at hc
                refine ⟨c, ?_, hdc⟩
                rw [show runLen isDigitChar rem +
                    runLen isSepChar (rem.drop (runLen isDigitChar rem)) +
                    (len2 - 1) = runLen isDigitChar rem +
                    runLen isSepChar (rem.drop (runLen isDigitChar rem)) +
                    len2 - 1 from by omega] at hc
                exact hc
            · exact absurd h (by simp)
          · exact absurd h (by simp)


/-- Every credit-card match is (at the same position, any context) also a
phone match: 13+ characters of digits and separators ending in a digit
satisfy `\+?\d[\d\-\s]{6,}\d`. -/
lemma card_to_phone (prev : Option Char) (c : Char) (rest : List Char) (L : Nat)
    (h : cardMatchAt prev (c :: rest) = some L) :
    phoneMatchAt prev (c :: rest) ≠ none := by
  unfold cardMatchAt at h
  split at h
  · exact absurd h (by simp)
  · simp only [List.head?_cons] at h
    split at h
    · rename_i hc
      obtain ⟨hpos, h13, hmid, hlast⟩ :=
        cardLoop_facts (c :: rest).length (c :: rest) le_rfl 0 L h
      rw [Nat.zero_add] at h13
      unfold phoneMatchAt
      simp only []
      have hplus : ¬ (c :: rest).head? = some '+' := by
        simp only [List.head?_cons, Option.some.injEq]
        intro he
        rw [he] at hc
        exact absurd hc (by decide)
      rw [if_neg hplus]
      simp only [List.drop_zero]
      rw [if_pos hc]
      have hrun : L - 2 ≤ runLen isPhoneMidChar rest - 1 := by
        have : L - 1 ≤ runLen isPhoneMidChar rest := by
          apply runLen_ge
          intro i hi
          obtain ⟨d, hd, hmd⟩ := hmid (i + 1) (by omega)
          rw [List.get?_cons_succ] at hd
          exact ⟨d, hd, hmd⟩
        omega
      have hdig : ∃ d, rest.get? (L - 2) = some d ∧ isDigitChar d = true := by
        obtain ⟨d, hd, hdd⟩ := hlast
        rw [show L - 1 = (L - 2) + 1 from by omega] at hd
        rw [List.get?_cons_succ] at hd
        exact ⟨d, hd, hdd⟩
      have hcomp := phoneDigitSearch_complete rest
        (runLen isPhoneMidChar rest - 1) (L - 2) (by omega) hrun hdig
      cases hsea : phoneDigitSearch rest (runLen isPhoneMidChar rest - 1) with
      | none => rw [hsea] at hcomp; exact absurd hcomp (by simp)
      | some j => simp
    · exact absurd h (by simp)

/-- The credit-card pass is vacuous on any string already free of phone
matches. -/
lemma noMatch_card_of_noMatch_phone :
    ∀ (prev : Option Char) (s : List Char), NoMatch phoneMatchAt prev s →
      NoMatch cardMatchAt prev s := by
  intro prev s
  induction s generalizing prev with
  | nil => intro _; trivial
  | cons c rest ih =>
      intro h
      refine ⟨?_, ih (some c) h.2⟩
      cases hc : cardMatchAt prev (c :: rest) with
      | none => rfl
      | some L => exact absurd h.1 (card_to_phone prev c rest L hc)


lemma email_irrel (p q : Option Char) (s : List Char) :
    emailMatchAt p s = emailMatchAt q s := rfl

lemma phone_irrel (p q : Option Char) (s : List Char) :
    phoneMatchAt p s = phoneMatchAt q s := rfl

lemma ip_fail (p : Option Char) (c : Char) (r : List Char)
    (h : isWordChar c = false) : ipMatchAt p (c :: r) = none :=
  ipMatchAt_none_head p c r (not_digit_of_not_word c h)

lemma ip_tokhead (p : Option Char) (r : List Char) : ipMatchAt p ('[' :: r) = none :=
  ipMatchAt_none_head p '[' r (by decide)

lemma iban_fail (p : Option Char) (c : Char) (r : List Char)
    (h : isWordChar c = false) : ibanMatchAt p (c :: r) = none :=
  ibanMatchAt_none_head p c r (not_upper_of_not_word c h)

lemma iban_tokhead (p : Option Char) (r : List Char) : ibanMatchAt p ('[' :: r) = none :=
  ibanMatchAt_none_head p '[' r (by decide)

lemma pres_email_phone : ∀ prev s out, Subbed phoneMatchAt REPL prev s out →
    NoMatch emailMatchAt prev s → NoMatch emailMatchAt prev out :=
  master_pres (hcore_of_ext (fun prev w z ℓ h u => email_ext prev w z ℓ h u))
    email_htok (hafter_of_prevIrrel email_irrel) phone_pos

lemma pres_email_ip : ∀ prev s out, Subbed ipMatchAt REPL prev s out →
    NoMatch emailMatchAt prev s → NoMatch emailMatchAt prev out :=
  master_pres (hcore_of_ext (fun prev w z ℓ h u => email_ext prev w z ℓ h u))
    email_htok (hafter_of_prevIrrel email_irrel) ip_pos

lemma pres_email_iban : ∀ prev s out, Subbed ibanMatchAt REPL prev s out →
    NoMatch emailMatchAt prev s → NoMatch emailMatchAt prev out :=
  master_pres (hcore_of_ext (fun prev w z ℓ h u => email_ext prev w z ℓ h u))
    email_htok (hafter_of_prevIrrel email_irrel) iban_pos

lemma pres_phone_ip : ∀ prev s out, Subbed ipMatchAt REPL prev s out →
    NoMatch phoneMatchAt prev s → NoMatch phoneMatchAt prev out :=
  master_pres (hcore_of_ext (fun prev w z ℓ h u => phone_ext prev w z ℓ h u))
    phone_htok (hafter_of_prevIrrel phone_irrel) ip_pos

lemma pres_phone_iban : ∀ prev s out, Subbed ibanMatchAt REPL prev s out →
    NoMatch phoneMatchAt prev s → NoMatch phoneMatchAt prev out :=
  master_pres (hcore_of_ext (fun prev w z ℓ h u => phone_ext prev w z ℓ h u))
    phone_htok (hafter_of_prevIrrel phone_irrel) iban_pos

lemma pres_ip_iban : ∀ prev s out, Subbed ibanMatchAt REPL prev s out →
    NoMatch ipMatchAt prev s → NoMatch ipMatchAt prev out :=
  master_pres
    (hcore_of_ext_boundary (fun prev w z ℓ h u => ip_ext prev w z ℓ h u) iban_prev)
    ip_htok (hafter_boundary ip_fail ip_tokhead iban_pos iban_trail) iban_pos

lemma compl_email : ∀ prev s out, Subbed emailMatchAt REPL prev s out →
    NoMatch emailMatchAt prev out :=
  master_compl (hcore_of_ext (fun prev w z ℓ h u => email_ext prev w z ℓ h u))
    email_htok (hafter_of_prevIrrel email_irrel)

lemma compl_phone : ∀ prev s out, Subbed phoneMatchAt REPL prev s out →
    NoMatch phoneMatchAt prev out :=
  master_compl (hcore_of_ext (fun prev w z ℓ h u => phone_ext prev w z ℓ h u))
    phone_htok (hafter_of_prevIrrel phone_irrel)

lemma compl_ip : ∀ prev s out, Subbed ipMatchAt REPL prev s out →
    NoMatch ipMatchAt prev out :=
  master_compl
    (hcore_of_ext_boundary (fun prev w z ℓ h u => ip_ext prev w z ℓ h u) ip_prev)
    ip_htok (hafter_boundary ip_fail ip_tokhead ip_pos ip_trail)

lemma compl_iban : ∀ prev s out, Subbed ibanMatchAt REPL prev s out →
    NoMatch ibanMatchAt prev out :=
  master_compl
    (hcore_of_ext_boundary (fun prev w z ℓ h u => iban_ext prev w z ℓ h u) iban_prev)
    iban_htok (hafter_boundary iban_fail iban_tokhead iban_pos iban_trail)

/-- The default-configuration `redact_text` pipeline: the five compiled
patterns applied in order (email, phone, ip, credit card, iban), each as a
global substitution by `[REDACTED]`. -/
def redact_text (s : List Char) : List Char :=
  globalSub ibanMatchAt REPL none
    (globalSub cardMatchAt REPL none
      (globalSub ipMatchAt REPL none
        (globalSub phoneMatchAt REPL none
          (globalSub emailMatchAt REPL none s))))

/-- After a full redaction pass, no pattern matches anywhere. -/
lemma redact_text_noMatch (s : List Char) :
    NoMatch emailMatchAt none (redact_text s) ∧
    NoMatch phoneMatchAt none (redact_text s) ∧
    NoMatch ipMatchAt none (redact_text s) ∧
    NoMatch cardMatchAt none (redact_text s) ∧
    NoMatch ibanMatchAt none (redact_text s) := by
  unfold redact_text
  set s1 := globalSub emailMatchAt REPL none s with hs1
  set s2 := globalSub phoneMatchAt REPL none s1 with hs2
  set s3 := globalSub ipMatchAt REPL none s2 with hs3
  set s4 := globalSub cardMatchAt REPL none s3 with hs4
  set s5 := globalSub ibanMatchAt REPL none s4 with hs5
  have hsub1 : Subbed emailMatchAt REPL none s s1 :=
    globalSub_subbed emailMatchAt REPL s none
  have hE1 : NoMatch emailMatchAt none s1 := compl_email none s s1 hsub1
  have hsub2 : Subbed phoneMatchAt REPL none s1 s2 :=
    globalSub_subbed phoneMatchAt REPL s1 none
  have hP2 : NoMatch phoneMatchAt none s2 := compl_phone none s1 s2 hsub2
  have hE2 : NoMatch emailMatchAt none s2 := pres_email_phone none s1 s2 hsub2 hE1
  have hsub3 : Subbed ipMatchAt REPL none s2 s3 :=
    globalSub_subbed ipMatchAt REPL s2 none
  have hI3 : NoMatch ipMatchAt none s3 := compl_ip none s2 s3 hsub3
  have hE3 : NoMatch emailMatchAt none s3 := pres_email_ip none s2 s3 hsub3 hE2
  have hP3 : NoMatch phoneMatchAt none s3 := pres_phone_ip none s2 s3 hsub3 hP2
  have hC3 : NoMatch cardMatchAt none s3 := noMatch_card_of_noMatch_phone none s3 hP3
  have h43 : s4 = s3 := by
    rw [hs4]
    exact noMatch_globalSub_id hC3
  have hsub5 : Subbed ibanMatchAt REPL none s4 s5 :=
    globalSub_subbed ibanMatchAt REPL s4 none
  have hB5 : NoMatch ibanMatchAt none s5 := compl_iban none s4 s5 hsub5
  have hsub5p : Subbed ibanMatchAt REPL none s3 s5 := h43 ▸ hsub5
  have hE5 : NoMatch emailMatchAt none s5 := pres_email_iban none s3 s5 hsub5p hE3
  have hP5 : NoMatch phoneMatchAt none s5 := pres_phone_iban none s3 s5 hsub5p hP3
  have hI5 : NoMatch ipMatchAt none s5 := pres_ip_iban none s3 s5 hsub5p hI3
  have hC5 : NoMatch cardMatchAt none s5 := noMatch_card_of_noMatch_phone none s5 hP5
  exact ⟨hE5, hP5, hI5, hC5, hB5⟩

/-- Text-level idempotence of the default redaction pass. -/
lemma redact_text_idem (s : List Char) :
    redact_text (redact_text s) = redact_text s := by
  have h := redact_text_noMatch s
  set t := redact_text s with ht
  obtain ⟨hE, hP, hI, hC, hB⟩ := h
  have hunf : redact_text t = globalSub ibanMatchAt REPL none
      (globalSub cardMatchAt REPL none
        (globalSub ipMatchAt REPL none
          (globalSub phoneMatchAt REPL none
            (globalSub emailMatchAt REPL none t)))) := rfl
  rw [hunf]
  rw [noMatch_globalSub_id hE, noMatch_globalSub_id hP, noMatch_globalSub_id hI,
    noMatch_globalSub_id hC, noMatch_globalSub_id hB]


/-- Configuration `RedactionConfig`: replacement token and per-pattern toggles. -/
structure RedactionConfig where
  replacement : List Char
  redact_email : Bool
  redact_phone : Bool
  redact_ip : Bool
  redact_credit_card : Bool
  redact_iban : Bool

/-- The dataclass defaults: `"[REDACTED]"` and all five patterns on. -/
def defaultRedactionConfig : RedactionConfig where
  replacement := "[REDACTED]".toList
  redact_email := true
  redact_phone := true
  redact_ip := true
  redact_credit_card := true
  redact_iban := true

/-- Model of `_compile_patterns`: the enabled patterns in declaration order. -/
def compilePatterns (cfg : RedactionConfig) : List Matcher :=
  (if cfg.redact_email then [emailMatchAt] else []) ++
  (if cfg.redact_phone then [phoneMatchAt] else []) ++
  (if cfg.redact_ip then [ipMatchAt] else []) ++
  (if cfg.redact_credit_card then [cardMatchAt] else []) ++
  (if cfg.redact_iban then [ibanMatchAt] else [])

/-- Model of `redact_text`: fold the compiled patterns over the text, each one a
global substitution by the replacement. -/
def redactText (cfg : RedactionConfig) (s : List Char) : List Char :=
  (compilePatterns cfg).foldl (fun acc m => globalSub m cfg.replacement none acc) s

lemma redactText_default (s : List Char) :
    redactText defaultRedactionConfig s = redact_text s := rfl

/-- Python payloads as seen by `redact_payload`: strings, dicts, lists,
tuples, and opaque other values. -/
inductive Payload where
  | str (s : List Char) : Payload
  | dict (entries : List (List Char × Payload)) : Payload
  | arr (items : List Payload) : Payload
  | tup (items : List Payload) : Payload
  | other : Payload

mutual

/-- Model of `redact_payload`: redact strings, recurse through dict values, list
and tuple items, and return anything else unchanged. -/
def redact_payload (cfg : RedactionConfig) : Payload → Payload
  | .str s => .str (redactText cfg s)
  | .dict entries => .dict (redact_entries cfg entries)
  | .arr items => .arr (redact_list cfg items)
  | .tup items => .tup (redact_list cfg items)
  | .other => .other

/-- Value-wise redaction of a dict's entries (keys untouched). -/
def redact_entries (cfg : RedactionConfig) :
    List (List Char × Payload) → List (List Char × Payload)
  | [] => []
  | (k, v) :: rest => (k, redact_payload cfg v) :: redact_entries cfg rest

/-- Item-wise redaction of a list's or tuple's items. -/
def redact_list (cfg : RedactionConfig) : List Payload → List Payload
  | [] => []
  | p :: rest => redact_payload cfg p :: redact_list cfg rest

end

mutual

lemma redact_payload_idem_aux (p : Payload) :
    redact_payload defaultRedactionConfig (redact_payload defaultRedactionConfig p)
      = redact_payload defaultRedactionConfig p :=
  match p with
  | .str s => by
      simp only [redact_payload, redactText_default, redact_text_idem]
  | .dict entries => by
      simp only [redact_payload, redact_entries_idem_aux entries]
  | .arr items => by
      simp only [redact_payload, redact_list_idem_aux items]
  | .tup items => by
      simp only [redact_payload, redact_list_idem_aux items]
  | .other => rfl

lemma redact_entries_idem_aux (es : List (List Char × Payload)) :
    redact_entries defaultRedactionConfig (redact_entries defaultRedactionConfig es)
      = redact_entries defaultRedactionConfig es :=
  match es with
  | [] => rfl
  | (k, v) :: rest => by
      simp only [redact_entries, redact_payload_idem_aux v,
        redact_entries_idem_aux rest]

lemma redact_list_idem_aux (ps : List Payload) :
    redact_list defaultRedactionConfig (redact_list defaultRedactionConfig ps)
      = redact_list defaultRedactionConfig ps :=
  match ps with
  | [] => rfl
  | p :: rest => by
      simp only [redact_list, redact_payload_idem_aux p, redact_list_idem_aux rest]

end


/-- C3: The redaction filter is idempotent — for every payload `x`,
`redact(redact(x)) = redact(x)`: redacting an already redacted payload
(default configuration) changes nothing. -/
theorem redact_payload_idempotent (p : Payload) :
    redact_payload defaultRedactionConfig (redact_payload defaultRedactionConfig p)
      = redact_payload defaultRedactionConfig p :=
  redact_payload_idem_aux p

end OmniGuard
